import Mathlib

/-!
Verification of the torchinductor scheduler (`torchinductor/scheduler.py`).

This development shallowly embeds the data model and the operations of the
scheduler: dependency records (`dependencies.MemoryDep` / `dependencies.StarDep`),
user lists (`NodeUser`, `BaseSchedulerNode.set_users`), buffer liveness
(`BaseSchedulerNode.can_free`, `Scheduler.maybe_free_buffers`), the blocked-node
index (`SchedulerNodeBox`, `BlockedNodes.pop_fusable`), the priority queue of
runnable groups (`collections.Counter.most_common` over `Scheduler.enqueue`),
dead-node elimination, allocation (`SchedulerNode.allocate`, `can_inplace`),
mutation-edge construction (`Scheduler.compute_users`), and an operational model
of the driver loop (`Scheduler.codegen` / `iter_runnable_groups` / `barrier`).

Python `set`s of dependency records are modelled as `List Dep` used up to
membership; Python `dict`s (insertion ordered) as association lists; machine
identity (`id(x)`) as an explicit numeric identifier.
-/

namespace InductorSched

/-- Dependency record from `torchinductor/dependencies.py` (not under `src/`,
shape taken from its uses in `scheduler.py` and the spec §3): a precise
`MemoryDep` carries a buffer name, an index expression and a size tuple,
compared structurally; a coarse `StarDep` carries only the buffer name.
Index expressions and sizes are abstracted to `Nat` / `List Nat`; only their
decidable structural equality is used by the scheduler. -/
inductive Dep where
  | mem (name : String) (index : Nat) (size : List Nat)
  | star (name : String)
deriving DecidableEq, Repr

/-- The buffer name a dependency record refers to (`.name` in the source). -/
def Dep.name : Dep → String
  | .mem n _ _ => n
  | .star n => n

/-! ## C10 : `BaseSchedulerNode.set_users` (scheduler.py lines 78-88)

`set_users` deduplicates a list of `NodeUser` records keyed by `id(use.node)`:
a repeated consumer keeps one record whose `can_inplace` is the conjunction of
all records for that consumer.  Consumer identity is modelled as a `Nat` id. -/

/-- A `NodeUser` record (scheduler.py lines 415-421), with the consumer node
represented by its machine identity (`id(use.node)` in the source). -/
structure NodeUser where
  nodeId : Nat
  can_inplace : Bool
deriving DecidableEq, Repr

/-- The loop body of `set_users`: fold the input records into the
insertion-ordered dict `result` keyed by `id(use.node)`; a hit replaces the
stored record in place with the conjunction of the `can_inplace` flags. -/
def set_users_go (acc : List (Nat × NodeUser)) : List NodeUser → List (Nat × NodeUser)
  | [] => acc
  | u :: us =>
    if (acc.lookup u.nodeId).isSome then
      set_users_go
        (acc.map fun p =>
          if p.1 = u.nodeId then
            (p.1, ⟨u.nodeId, p.2.can_inplace && u.can_inplace⟩)
          else p) us
    else
      set_users_go (acc ++ [(u.nodeId, u)]) us

/-- `BaseSchedulerNode.set_users`: `self.users = list(result.values())`. -/
def set_users (users : List NodeUser) : List NodeUser :=
  (set_users_go [] users).map Prod.snd

/-- Conjunction of the `can_inplace` flags of all records of consumer `k`. -/
def allFlags (k : Nat) (users : List NodeUser) : Bool :=
  (users.filter fun v => v.nodeId = k).all fun v => v.can_inplace

/-- The new entries `set_users_go` appends for ids not seen yet: one entry per
first occurrence, whose flag ends up as the conjunction over the rest. -/
def newEntries : List NodeUser → List Nat → List (Nat × NodeUser)
  | [], _ => []
  | u :: us, seen =>
    if u.nodeId ∈ seen then newEntries us seen
    else (u.nodeId, ⟨u.nodeId, u.can_inplace && allFlags u.nodeId us⟩) :: newEntries us (u.nodeId :: seen)

lemma lookup_isSome_iff (l : List (Nat × NodeUser)) (k : Nat) :
    (l.lookup k).isSome ↔ k ∈ l.map Prod.fst := by
  induction l with
  | nil => simp [List.lookup]
  | cons p l ih =>
    by_cases h : k = p.1
    · subst h
      simp [List.lookup]
    · have hb : (k == p.1) = false := beq_eq_false_iff_ne.2 h
      simp only [List.lookup, hb, List.map_cons, List.mem_cons]
      rw [ih]
      constructor
      · intro hm; exact Or.inr hm
      · intro hm
        rcases hm with hm | hm
        · exact absurd hm h
        · exact hm

lemma allFlags_cons (k : Nat) (u : NodeUser) (us : List NodeUser) :
    allFlags k (u :: us) =
      (if u.nodeId = k then u.can_inplace && allFlags k us else allFlags k us) := by
  by_cases h : u.nodeId = k <;> simp [allFlags, h]

lemma newEntries_congr (us : List NodeUser) :
    ∀ s₁ s₂ : List Nat, (∀ k, k ∈ s₁ ↔ k ∈ s₂) →
      newEntries us s₁ = newEntries us s₂ := by
  induction us with
  | nil => intro s₁ s₂ _; rfl
  | cons u us ih =>
    intro s₁ s₂ hset
    by_cases h : u.nodeId ∈ s₁
    · rw [newEntries, newEntries, if_pos h, if_pos ((hset _).1 h), ih _ _ hset]
    · have h₂ : u.nodeId ∉ s₂ := fun hc => h ((hset _).2 hc)
      rw [newEntries, newEntries, if_neg h, if_neg h₂]
      congr 1
      refine ih _ _ ?_
      intro k
      simp only [List.mem_cons]
      exact or_congr Iff.rfl (hset k)

/-- Characterization of `set_users_go`: existing entries get their flags
conjoined with all later occurrences of the same id; unseen ids append one
entry per first occurrence. -/
lemma set_users_go_eq : ∀ (us : List NodeUser) (acc : List (Nat × NodeUser)),
    (∀ p ∈ acc, p.2.nodeId = p.1) →
    set_users_go acc us =
      (acc.map fun p => (p.1, ⟨p.1, p.2.can_inplace && allFlags p.1 us⟩)) ++
        newEntries us (acc.map Prod.fst) := by
  intro us
  induction us with
  | nil =>
    intro acc hacc
    rw [set_users_go, newEntries, List.append_nil]
    symm
    conv_rhs => rw [← List.map_id acc]
    apply List.map_congr_left
    intro p hp
    have hid := hacc p hp
    obtain ⟨k, u⟩ := p
    obtain ⟨i, c⟩ := u
    simp only at hid
    subst hid
    simp [allFlags]
  | cons u us ih =>
    intro acc hacc
    by_cases hmem : u.nodeId ∈ acc.map Prod.fst
    · have hs : (acc.lookup u.nodeId).isSome := (lookup_isSome_iff acc u.nodeId).2 hmem
      have hacc2 : ∀ p ∈ (acc.map fun p =>
          if p.1 = u.nodeId then (p.1, (⟨u.nodeId, p.2.can_inplace && u.can_inplace⟩ : NodeUser))
          else p), p.2.nodeId = p.1 := by
        intro q hq
        rcases List.mem_map.1 hq with ⟨p, hp, hpq⟩
        by_cases h : p.1 = u.nodeId
        · rw [if_pos h] at hpq
          rw [← hpq]
          exact h.symm
        · rw [if_neg h] at hpq
          rw [← hpq]
          exact hacc p hp
      rw [set_users_go, if_pos hs, ih _ hacc2]
      have hkeys :
          (acc.map fun p =>
            if p.1 = u.nodeId then (p.1, (⟨u.nodeId, p.2.can_inplace && u.can_inplace⟩ : NodeUser))
            else p).map Prod.fst = acc.map Prod.fst := by
        rw [List.map_map]
        apply List.map_congr_left
        intro p _
        by_cases h : p.1 = u.nodeId <;> simp [h]
      rw [hkeys, List.map_map, newEntries, if_pos hmem]
      congr 1
      apply List.map_congr_left
      intro p _
      by_cases h : p.1 = u.nodeId
      · have hne : u.nodeId = p.1 := h.symm
        simp only [Function.comp, if_pos h, allFlags_cons, if_pos hne, Bool.and_assoc]
      · have hne : u.nodeId ≠ p.1 := fun he => h he.symm
        simp only [Function.comp, if_neg h, allFlags_cons, if_neg hne]
    · have hs : ¬ (acc.lookup u.nodeId).isSome := fun hc =>
        hmem ((lookup_isSome_iff acc u.nodeId).1 hc)
      have hacc2 : ∀ p ∈ acc ++ [(u.nodeId, u)], p.2.nodeId = p.1 := by
        intro q hq
        rcases List.mem_append.1 hq with hq | hq
        · exact hacc q hq
        · rcases List.mem_singleton.1 hq with rfl
          rfl
      rw [set_users_go, if_neg hs, ih _ hacc2, List.map_append, List.append_assoc]
      congr 1
      · apply List.map_congr_left
        intro p hp
        have hne : u.nodeId ≠ p.1 := by
          intro he
          exact hmem (he ▸ List.mem_map_of_mem Prod.fst hp)
        rw [allFlags_cons, if_neg hne]
      · rw [newEntries, if_neg hmem]
        simp only [List.map_append, List.map_cons, List.map_nil, List.singleton_append]
        congr 1
        apply newEntries_congr
        intro k
        simp only [List.mem_append, List.mem_cons, List.mem_singleton, List.not_mem_nil,
          or_false]
        tauto

lemma newEntries_spec : ∀ (us : List NodeUser) (seen : List Nat),
    ∀ p ∈ newEntries us seen,
      p.1 ∉ seen ∧ p.2.nodeId = p.1 ∧ p.2.can_inplace = allFlags p.1 us := by
  intro us
  induction us with
  | nil => intro seen p hp; simp [newEntries] at hp
  | cons u us ih =>
    intro seen p hp
    rw [newEntries] at hp
    by_cases h : u.nodeId ∈ seen
    · rw [if_pos h] at hp
      obtain ⟨h₁, h₂, h₃⟩ := ih seen p hp
      refine ⟨h₁, h₂, ?_⟩
      rw [h₃, allFlags_cons]
      have hne : u.nodeId ≠ p.1 := by
        intro he
        exact h₁ (he ▸ h)
      rw [if_neg hne]
    · rw [if_neg h] at hp
      rcases List.mem_cons.1 hp with h' | h'
      · subst h'
        refine ⟨h, rfl, ?_⟩
        rw [allFlags_cons, if_pos rfl]
      · obtain ⟨h₁, h₂, h₃⟩ := ih _ p h'
        have hne : p.1 ∉ seen := fun hc => h₁ (List.mem_cons_of_mem _ hc)
        refine ⟨hne, h₂, ?_⟩
        have hneu : u.nodeId ≠ p.1 := by
          intro he
          exact h₁ (he ▸ List.mem_cons_self _ _)
        rw [h₃, allFlags_cons, if_neg hneu]

lemma newEntries_keys_nodup : ∀ (us : List NodeUser) (seen : List Nat),
    (newEntries us seen).map Prod.fst |>.Nodup := by
  intro us
  induction us with
  | nil => intro seen; simp [newEntries]
  | cons u us ih =>
    intro seen
    rw [newEntries]
    by_cases h : u.nodeId ∈ seen
    · rw [if_pos h]; exact ih seen
    · rw [if_neg h]
      simp only [List.map_cons, List.nodup_cons]
      refine ⟨?_, ih _⟩
      intro hc
      rcases List.mem_map.1 hc with ⟨p, hp, hfst⟩
      obtain ⟨h₁, _, _⟩ := newEntries_spec us (u.nodeId :: seen) p hp
      exact h₁ (hfst ▸ List.mem_cons_self _ _)

lemma newEntries_keys_mem : ∀ (us : List NodeUser) (seen : List Nat) (u : NodeUser),
    u ∈ us → u.nodeId ∉ seen → u.nodeId ∈ (newEntries us seen).map Prod.fst := by
  intro us
  induction us with
  | nil => intro seen u hu; simp at hu
  | cons v us ih =>
    intro seen u hu hns
    rw [newEntries]
    rcases List.mem_cons.1 hu with h' | h'
    · subst h'
      by_cases h : u.nodeId ∈ seen
      · exact absurd h hns
      · rw [if_neg h]; simp
    · by_cases h : v.nodeId ∈ seen
      · rw [if_pos h]; exact ih seen u h' hns
      · rw [if_neg h]
        by_cases he : u.nodeId = v.nodeId
        · simp [he]
        · simp only [List.map_cons, List.mem_cons]
          right
          refine ih _ u h' ?_
          intro hc
          rcases List.mem_cons.1 hc with hc' | hc'
          · exact he hc'
          · exact hns hc'

/-- C10: `set_users` deduplicates user records by consumer identity: the
resulting list has pairwise distinct consumer ids, every input consumer is
represented, and the surviving record's `can_inplace` flag is the conjunction
(AND) of the `can_inplace` flags of all input records for that consumer. -/
theorem C10_set_users_dedup (users : List NodeUser) :
    ((set_users users).map fun u => u.nodeId).Nodup ∧
    (∀ u ∈ users, ∃ v ∈ set_users users, v.nodeId = u.nodeId) ∧
    (∀ v ∈ set_users users, v.can_inplace = allFlags v.nodeId users) := by
  have he : set_users users = (newEntries users []).map Prod.snd := by
    rw [set_users, set_users_go_eq users [] (by intro p hp; simp at hp)]
    simp
  refine ⟨?_, ?_, ?_⟩
  · rw [he]
    have : ((newEntries users []).map Prod.snd).map (fun u => u.nodeId) =
        (newEntries users []).map Prod.fst := by
      rw [List.map_map]
      apply List.map_congr_left
      intro p hp
      exact (newEntries_spec users [] p hp).2.1
    rw [this]
    exact newEntries_keys_nodup users []
  · intro u hu
    have hk : u.nodeId ∈ (newEntries users []).map Prod.fst :=
      newEntries_keys_mem users [] u hu (List.not_mem_nil _)
    rcases List.mem_map.1 hk with ⟨p, hp, hfst⟩
    refine ⟨p.2, ?_, ?_⟩
    · rw [he]; exact List.mem_map_of_mem Prod.snd hp
    · rw [(newEntries_spec users [] p hp).2.1, hfst]
  · intro v hv
    rw [he] at hv
    rcases List.mem_map.1 hv with ⟨p, hp, hsnd⟩
    obtain ⟨_, hid, hflag⟩ := newEntries_spec users [] p hp
    rw [← hsnd, hflag, hid]

/-- Witness for C10 at a concrete user list with a repeated consumer id. -/
theorem C10_set_users_dedup_witness :
    ((set_users [⟨1, true⟩, ⟨1, false⟩, ⟨2, true⟩]).map fun u => u.nodeId).Nodup ∧
    (∀ u ∈ ([⟨1, true⟩, ⟨1, false⟩, ⟨2, true⟩] : List NodeUser),
      ∃ v ∈ set_users [⟨1, true⟩, ⟨1, false⟩, ⟨2, true⟩], v.nodeId = u.nodeId) ∧
    (∀ v ∈ set_users [⟨1, true⟩, ⟨1, false⟩, ⟨2, true⟩],
      v.can_inplace = allFlags v.nodeId [⟨1, true⟩, ⟨1, false⟩, ⟨2, true⟩]) :=
  C10_set_users_dedup [⟨1, true⟩, ⟨1, false⟩, ⟨2, true⟩]

/-! ## C2 : `BaseSchedulerNode.can_free` (lines 127-134) and
`Scheduler.maybe_free_buffers` (lines 772-789)

`can_free` scans the node's user records, failing on a synthetic `OutputNode`
user or on a user whose name is not yet available.  `maybe_free_buffers`
requests `codegen_free` for a candidate node only when `can_free` holds, the
name is truthy and the name is not a key of `mutation_renames`; when the name
is a key of `mutation_real_name` the free is redirected to the original
buffer resolved through that map. -/

/-- A user record as inspected by `can_free`: whether the user node is the
synthetic `OutputNode` (line 129) and the user's buffer name (line 131). -/
structure BufUser where
  isOutput : Bool
  name : String
deriving DecidableEq, Repr

/-- `BaseSchedulerNode.can_free` (lines 127-134): false as soon as some user
is an `OutputNode` or has a name outside `available_buffer_names`. -/
def can_free (users : List BufUser) (available : List String) : Bool :=
  users.all fun u => !u.isOutput && decide (u.name ∈ available)

/-- The per-candidate decision of `Scheduler.maybe_free_buffers`
(lines 776-788): which buffer name, if any, `codegen_free` is requested for
when candidate node `name` (with user list `users`) is examined.  Returns
`none` when nothing is freed.  `mutation_renames` / `mutation_real_name` are
the scheduler's rename maps, `node_names` the keys of `name_to_node`. -/
def free_target (name : String) (users : List BufUser) (available : List String)
    (mutation_renames : List (String × String))
    (mutation_real_name : List (String × String))
    (node_names : List String) : Option String :=
  if can_free users available && !(name == "") then
    if (mutation_renames.lookup name).isSome then none
    else
      match mutation_real_name.lookup name with
      | some r => if r ∈ node_names then some r else none
      | none => some name
  else none

/-- Counterexample to C2 as stated: with `buf0` mutated by `buf1`
(`mutation_renames = [buf0 -> buf1]`, `mutation_real_name = [buf1 -> buf0]`),
the completed mutator `buf1` passes the guard and `maybe_free_buffers`
requests `codegen_free` for the buffer named `buf0`, which IS a key of
`mutation_renames` — so a name that is a key of `mutation_renames` can be
freed (through the real-name redirect). -/
theorem C2_counterexample :
    free_target "buf1" [] ["x"] [("buf0", "buf1")] [("buf1", "buf0")]
        ["buf0", "buf1"] = some "buf0" ∧
    (([("buf0", "buf1")] : List (String × String)).lookup "buf0").isSome = true := by
  constructor
  · rfl
  · rfl

/-- C2 (amended): `can_free` returns true iff every user is a non-`OutputNode`
whose name is in the available set; `maybe_free_buffers` requests a free for a
candidate node only when `can_free` holds for that node and the node's own
name is not a key of `mutation_renames`; the freed buffer is either the
candidate itself or its `mutation_real_name` redirect (whose name may itself
be a `mutation_renames` key). -/
theorem C2_no_premature_free (name : String) (users : List BufUser)
    (available node_names : List String)
    (renames real : List (String × String)) :
    (can_free users available = true ↔
      ∀ u ∈ users, u.isOutput = false ∧ u.name ∈ available) ∧
    (∀ t, free_target name users available renames real node_names = some t →
      can_free users available = true ∧
      (renames.lookup name).isSome = false ∧
      (t = name ∨ real.lookup name = some t)) := by
  constructor
  · rw [can_free, List.all_eq_true]
    constructor
    · intro h u hu
      have := h u hu
      simp only [Bool.and_eq_true, Bool.not_eq_true', decide_eq_true_eq] at this
      exact this
    · intro h u hu
      obtain ⟨h1, h2⟩ := h u hu
      simp [h1, h2]
  · intro t ht
    unfold free_target at ht
    split at ht
    case isFalse => exact absurd ht (by simp)
    case isTrue hc =>
      have hcf : can_free users available = true := by
        simp only [Bool.and_eq_true] at hc
        exact hc.1
      split at ht
      case isTrue => exact absurd ht (by simp)
      case isFalse hr =>
        refine ⟨hcf, Bool.eq_false_iff.mpr hr, ?_⟩
        split at ht
        next r hreal =>
          split at ht
          case isTrue =>
            right
            rw [hreal]
            exact ht
          case isFalse => exact absurd ht (by simp)
        next hreal =>
          left
          exact (Option.some.inj ht).symm

/-- Witness for C2 (amended) at a concrete node that is freed directly. -/
theorem C2_no_premature_free_witness :
    (can_free [⟨false, "buf2"⟩] ["buf2"] = true ↔
      ∀ u ∈ ([⟨false, "buf2"⟩] : List BufUser), u.isOutput = false ∧ u.name ∈ ["buf2"]) ∧
    (∀ t, free_target "buf1" [⟨false, "buf2"⟩] ["buf2"] [] [] ["buf1"] = some t →
      can_free [⟨false, "buf2"⟩] ["buf2"] = true ∧
      (([] : List (String × String)).lookup "buf1").isSome = false ∧
      (t = "buf1" ∨ ([] : List (String × String)).lookup "buf1" = some t)) :=
  C2_no_premature_free "buf1" [⟨false, "buf2"⟩] ["buf2"] ["buf1"] [] []

/-! ## C5 : `Scheduler.iter_runnable_groups` (lines 803-818) and
`Scheduler.enqueue` (lines 702-722)

`enqueue` stores, per group, the pair `(max node priority, enqueued count)` as
the `Counter` value; `iter_runnable_groups` drains the extern FIFO first and
otherwise takes `runnable_groups.most_common(1)[0]`, i.e. the first entry
whose stored `(priority, count)` value is maximal under lexicographic tuple
comparison, earlier-inserted entries winning exact ties. -/

/-- Lexicographic order on the stored `(priority, count)` Counter values, the
comparison Python applies to the tuple stored by `Scheduler.enqueue`. -/
def valLt (a b : Nat × Nat) : Prop :=
  a.1 < b.1 ∨ (a.1 = b.1 ∧ a.2 < b.2)

instance (a b : Nat × Nat) : Decidable (valLt a b) := by
  unfold valLt
  infer_instance

lemma valLt_irrefl (a : Nat × Nat) : ¬ valLt a a := by
  unfold valLt
  omega

lemma valLt_cotrans (a b c : Nat × Nat) : valLt a c → valLt a b ∨ valLt b c := by
  unfold valLt
  omega

lemma valLt_asymm (a b : Nat × Nat) : valLt a b → ¬ valLt b a := by
  unfold valLt
  omega

/-- `runnable_groups.most_common(1)[0]`: the first entry (insertion order)
of the Counter whose stored value is maximal.  Entries are
`(group, (priority, count))` with groups abstracted to `Nat`. -/
def most_common1 : List (Nat × (Nat × Nat)) → Option (Nat × (Nat × Nat))
  | [] => none
  | x :: xs =>
    match most_common1 xs with
    | none => some x
    | some y => if valLt x.2 y.2 then some y else some x

/-- One turn of the `iter_runnable_groups` loop head (lines 804-816): a
non-empty extern FIFO is drained first (`popleft`, `Sum.inl`); otherwise the
`most_common` group is yielded (`Sum.inr`). -/
def iter_step (externQ : List String) (groups : List (Nat × (Nat × Nat))) :
    Option (Sum String Nat) :=
  match externQ with
  | e :: _ => some (Sum.inl e)
  | [] => (most_common1 groups).map fun x => Sum.inr x.1

/-- The selection order claimed by the spec: maximal priority component, with
ties among equal-priority groups broken by insertion order (so everything
inserted before the selected entry has strictly smaller priority). -/
def claim_tie_break (l : List (Nat × (Nat × Nat))) (x : Nat × (Nat × Nat)) : Prop :=
  ∃ l1 l2, l = l1 ++ x :: l2 ∧ (∀ y ∈ l, y.2.1 ≤ x.2.1) ∧ ∀ y ∈ l1, y.2.1 < x.2.1

/-- Counterexample to C5 as stated: groups 1 and 2 both have stored priority
5; group 1 was inserted first with one enqueued node, group 2 second with two.
`most_common(1)` compares the stored `(priority, count)` tuples
lexicographically and yields group 2, while the claimed insertion-order
tie-break would yield group 1. -/
theorem C5_counterexample :
    most_common1 [(1, (5, 1)), (2, (5, 2))] = some (2, (5, 2)) ∧
    ¬ claim_tie_break [(1, (5, 1)), (2, (5, 2))] (2, (5, 2)) := by
  constructor
  · rfl
  · rintro ⟨l1, l2, heq, _, hlt⟩
    rcases l1 with _ | ⟨p, l1⟩
    · simp at heq
    · rcases l1 with _ | ⟨q, l1⟩
      · simp only [List.cons_append, List.nil_append] at heq
        obtain ⟨h1, h2⟩ := List.cons.inj heq
        have := hlt p (List.mem_singleton.2 rfl)
        rw [← h1] at this
        simp at this
      · simp only [List.cons_append] at heq
        obtain ⟨h1, heq⟩ := List.cons.inj heq
        obtain ⟨h2, heq⟩ := List.cons.inj heq
        exact absurd heq (by simp)

/-- C5 (amended): the driver loop runs the front of the extern FIFO whenever
it is non-empty; otherwise it yields the group whose stored
`(priority, count)` value is lexicographically maximal, with exact ties broken
by insertion order (every earlier entry is strictly below the selected value).
Equal-priority groups with different enqueued counts are ordered by count,
not by insertion order. -/
theorem C5_driver_selection :
    (∀ e rest groups, iter_step (e :: rest) groups = some (Sum.inl e)) ∧
    (∀ groups x, most_common1 groups = some x →
      x ∈ groups ∧ (∀ y ∈ groups, ¬ valLt x.2 y.2) ∧
      ∃ l1 l2, groups = l1 ++ x :: l2 ∧ ∀ y ∈ l1, valLt y.2 x.2) ∧
    (∀ groups x, most_common1 groups = some x →
      iter_step [] groups = some (Sum.inr x.1)) := by
  refine ⟨fun e rest groups => rfl, ?_, ?_⟩
  · intro groups
    induction groups with
    | nil => intro x hx; exact absurd hx (by simp [most_common1])
    | cons a xs ih =>
      intro x hx
      rw [most_common1] at hx
      split at hx
      next htail =>
        rcases Option.some.inj hx with rfl
        cases xs with
        | nil =>
          exact ⟨List.mem_singleton.2 rfl, by simp [valLt_irrefl], [], [], rfl, by simp⟩
        | cons b ys =>
          exfalso
          rw [most_common1] at htail
          split at htail
          · simp at htail
          · split at htail <;> simp at htail
      next y htail =>
        obtain ⟨hy_mem, hy_max, l1, l2, hdecomp, hl1⟩ := ih y htail
        by_cases hv : valLt a.2 y.2
        · rw [if_pos hv] at hx
          rcases Option.some.inj hx with rfl
          refine ⟨List.mem_cons_of_mem a hy_mem, ?_, a :: l1, l2,
            by rw [hdecomp, List.cons_append], ?_⟩
          · intro z hz
            rcases List.mem_cons.1 hz with rfl | hz
            · exact valLt_asymm _ _ hv
            · exact hy_max z hz
          · intro z hz
            rcases List.mem_cons.1 hz with rfl | hz
            · exact hv
            · exact hl1 z hz
        · rw [if_neg hv] at hx
          rcases Option.some.inj hx with rfl
          refine ⟨List.mem_cons_self _ _, ?_, [], xs, rfl, by simp⟩
          intro z hz
          rcases List.mem_cons.1 hz with rfl | hz
          · exact valLt_irrefl _
          · intro hc
            rcases valLt_cotrans _ y.2 z.2 hc with h | h
            · exact hv h
            · exact hy_max z hz h
  · intro groups x hx
    rw [iter_step, hx]
    rfl

/-- Witness for C5 (amended) at concrete queues. -/
theorem C5_driver_selection_witness :
    iter_step ["extern_call"] [(1, (5, 1))] = some (Sum.inl "extern_call") ∧
    ((2, (7, 1)) ∈ [(1, (5, 1)), (2, (7, 1))] ∧
      (∀ y ∈ [(1, (5, 1)), (2, (7, 1))], ¬ valLt (7, 1) y.2) ∧
      ∃ l1 l2, [(1, (5, 1)), (2, (7, 1))] = l1 ++ (2, (7, 1)) :: l2 ∧
        ∀ y ∈ l1, valLt y.2 (7, 1)) ∧
    iter_step [] [(1, (5, 1)), (2, (7, 1))] = some (Sum.inr 2) :=
  ⟨C5_driver_selection.1 "extern_call" [] [(1, (5, 1))],
   C5_driver_selection.2.1 [(1, (5, 1)), (2, (7, 1))] (2, (7, 1)) (by rfl),
   C5_driver_selection.2.2 [(1, (5, 1)), (2, (7, 1))] (2, (7, 1)) (by rfl)⟩

/-! ## C7 : `Scheduler.dead_node_elimination` (lines 691-700) and the
output/mutated-input pinning of `Scheduler.compute_users` (lines 670-680)

`dead_node_elimination` keeps exactly the nodes with a non-empty user list
and records the names of the dropped nodes in `V.graph.removed_buffers`.
Before it runs, `compute_users` appends a synthetic `OutputNode` user to
`name_to_users[rename(n)]` for every graph output `n` (skipping
`NoneAsConstantBuffer` outputs) and for every key of `mutation_renames` that
is a graph input. -/

/-- The rename-chain resolution `rename(n)` of `Scheduler.compute_users`
(lines 618-621).  The Python recursion is unbounded; `fuel` bounds it, and
the theorems carry hypotheses making the fuel sufficient. -/
def rename (renames : List (String × String)) : Nat → String → String
  | 0, n => n
  | fuel + 1, n =>
    match renames.lookup n with
    | some m => rename renames fuel m
    | none => n

/-- Association-list update-or-append, modelling assignment into a Python
(default)dict: the first binding of the key is replaced, or a new binding is
appended preserving insertion order. -/
def updA {α : Type} (l : List (String × α)) (k : String) (v : α) : List (String × α) :=
  if (l.lookup k).isSome then
    l.map fun p => if p.1 = k then (k, v) else p
  else l ++ [(k, v)]

/-- `name_to_users[k]` with the defaultdict-empty-list semantics. -/
def getU (n2u : List (String × List BufUser)) (k : String) : List BufUser :=
  (n2u.lookup k).getD []

/-- `add_user(name, OutputNode(StarDep(name)))` (lines 636-637 applied at
lines 674, 679): append a synthetic output user to the user list of the
rename-resolved buffer. -/
def add_output_user (renames : List (String × String)) (fuel : Nat)
    (n2u : List (String × List BufUser)) (name : String) :
    List (String × List BufUser) :=
  updA n2u (rename renames fuel name)
    (getU n2u (rename renames fuel name) ++ [⟨true, "OUTPUT"⟩])

/-- Output pinning (lines 671-674): register a synthetic user for every
(non-constant) graph output name. -/
def pin_outputs (renames : List (String × String)) (fuel : Nat)
    (n2u : List (String × List BufUser)) (graph_outputs : List String) :
    List (String × List BufUser) :=
  graph_outputs.foldl (fun acc o => add_output_user renames fuel acc o) n2u

/-- Mutated-input pinning (lines 677-680): for every key of
`mutation_renames` that is a graph input, register a synthetic user. -/
def pin_mutated_inputs (renames : List (String × String)) (fuel : Nat)
    (n2u : List (String × List BufUser)) (graph_inputs : List String) :
    List (String × List BufUser) :=
  (renames.map Prod.fst).foldl
    (fun acc nm => if nm ∈ graph_inputs then add_output_user renames fuel acc nm else acc)
    n2u

/-- `Scheduler.dead_node_elimination` (lines 691-700) over nodes given as
`(name, users)` pairs: returns the surviving node list and the updated
removed-buffers set. -/
def dead_node_elimination (nodes : List (String × List BufUser))
    (removed : List String) :
    List (String × List BufUser) × List String :=
  (nodes.filter fun n => !n.2.isEmpty,
   removed ++ (nodes.filter fun n => n.2.isEmpty).map Prod.fst)

lemma lookup_map_upd_self {α : Type} (k : String) (v : α) :
    ∀ l : List (String × α),
      (l.map fun p => if p.1 = k then (k, v) else p).lookup k =
        ((l.lookup k).map fun _ => v) := by
  intro l
  induction l with
  | nil => simp
  | cons p l ih =>
    rw [List.map_cons]
    by_cases h : p.1 = k
    · rw [if_pos h]
      have hb : (k == p.1) = true := beq_iff_eq.2 h.symm
      simp only [List.lookup, beq_self_eq_true, hb, Option.map_some']
    · rw [if_neg h]
      have hb : (k == p.1) = false := beq_eq_false_iff_ne.2 fun he => h he.symm
      simp only [List.lookup, hb]
      exact ih

lemma lookup_map_upd_other {α : Type} (k k' : String) (v : α) (h : k' ≠ k) :
    ∀ l : List (String × α),
      (l.map fun p => if p.1 = k then (k, v) else p).lookup k' = l.lookup k' := by
  intro l
  induction l with
  | nil => simp
  | cons p l ih =>
    rw [List.map_cons]
    by_cases hp : p.1 = k
    · rw [if_pos hp]
      have hb : (k' == k) = false := beq_eq_false_iff_ne.2 h
      have hb2 : (k' == p.1) = false := beq_eq_false_iff_ne.2 (hp ▸ h)
      simp only [List.lookup, hb, hb2]
      exact ih
    · rw [if_neg hp]
      simp only [List.lookup]
      cases hkp : k' == p.1
      · exact ih
      · rfl

lemma lookup_append_single_self {α : Type} (k : String) (v : α) :
    ∀ l : List (String × α), l.lookup k = none →
      (l ++ [(k, v)]).lookup k = some v := by
  intro l
  induction l with
  | nil => simp [List.lookup]
  | cons p l ih =>
    intro hn
    rw [List.cons_append]
    rw [List.lookup] at hn ⊢
    cases hkp : k == p.1
    · rw [hkp] at hn
      exact ih hn
    · rw [hkp] at hn
      simp at hn

lemma lookup_updA_self {α : Type} (l : List (String × α)) (k : String) (v : α) :
    (updA l k v).lookup k = some v := by
  rw [updA]
  split
  next hs =>
    rw [lookup_map_upd_self]
    cases h : l.lookup k with
    | none => rw [h] at hs; simp at hs
    | some w => simp
  next hs =>
    apply lookup_append_single_self
    cases h : l.lookup k with
    | none => rfl
    | some w => rw [h] at hs; simp at hs

lemma lookup_append_single_other {α : Type} (k k' : String) (v : α) (h : k' ≠ k) :
    ∀ l : List (String × α), (l ++ [(k, v)]).lookup k' = l.lookup k' := by
  intro l
  induction l with
  | nil =>
    have hb : (k' == k) = false := beq_eq_false_iff_ne.2 h
    simp [List.lookup, hb]
  | cons p l ih =>
    rw [List.cons_append]
    simp only [List.lookup]
    cases hkp : k' == p.1
    · exact ih
    · rfl

lemma lookup_updA_other {α : Type} (l : List (String × α)) (k k' : String) (v : α)
    (h : k' ≠ k) : (updA l k v).lookup k' = l.lookup k' := by
  rw [updA]
  split
  · exact lookup_map_upd_other k k' v h l
  · exact lookup_append_single_other k k' v h l

lemma getU_add_output_user_self (renames : List (String × String)) (fuel : Nat)
    (n2u : List (String × List BufUser)) (name : String) :
    getU (add_output_user renames fuel n2u name) (rename renames fuel name) =
      getU n2u (rename renames fuel name) ++ [⟨true, "OUTPUT"⟩] := by
  rw [add_output_user, getU, lookup_updA_self]
  rfl

lemma getU_add_output_user_mono (renames : List (String × String)) (fuel : Nat)
    (n2u : List (String × List BufUser)) (name k : String)
    (h : getU n2u k ≠ []) : getU (add_output_user renames fuel n2u name) k ≠ [] := by
  by_cases hk : k = rename renames fuel name
  · subst hk
    rw [getU_add_output_user_self]
    simp
  · rw [add_output_user, getU, lookup_updA_other _ _ _ _ hk]
    exact h

lemma pin_outputs_mono (renames : List (String × String)) (fuel : Nat)
    (outs : List String) :
    ∀ (n2u : List (String × List BufUser)) (k : String),
      getU n2u k ≠ [] → getU (pin_outputs renames fuel n2u outs) k ≠ [] := by
  induction outs with
  | nil => intro n2u k h; exact h
  | cons o os ih =>
    intro n2u k h
    exact ih (add_output_user renames fuel n2u o) k
      (getU_add_output_user_mono renames fuel n2u o k h)

lemma pin_outputs_pins (renames : List (String × String)) (fuel : Nat)
    (outs : List String) :
    ∀ (n2u : List (String × List BufUser)) (o : String), o ∈ outs →
      getU (pin_outputs renames fuel n2u outs) (rename renames fuel o) ≠ [] := by
  induction outs with
  | nil => intro n2u o h; exact absurd h (List.not_mem_nil o)
  | cons o' os ih =>
    intro n2u o h
    rcases List.mem_cons.1 h with rfl | h
    · refine pin_outputs_mono renames fuel os (add_output_user renames fuel n2u o)
        (rename renames fuel o) ?_
      rw [getU_add_output_user_self]
      simp
    · exact ih (add_output_user renames fuel n2u o') o h

lemma pin_mutated_mono (renames : List (String × String)) (fuel : Nat)
    (keys : List String) (graph_inputs : List String) :
    ∀ (n2u : List (String × List BufUser)) (k : String),
      getU n2u k ≠ [] →
      getU (keys.foldl
        (fun acc nm => if nm ∈ graph_inputs then add_output_user renames fuel acc nm else acc)
        n2u) k ≠ [] := by
  induction keys with
  | nil => intro n2u k h; exact h
  | cons nm keys ih =>
    intro n2u k h
    rw [List.foldl_cons]
    by_cases hi : nm ∈ graph_inputs
    · rw [if_pos hi]
      exact ih _ k (getU_add_output_user_mono renames fuel n2u nm k h)
    · rw [if_neg hi]
      exact ih _ k h

lemma pin_mutated_pins (renames : List (String × String)) (fuel : Nat)
    (keys : List String) (graph_inputs : List String) :
    ∀ (n2u : List (String × List BufUser)) (nm : String), nm ∈ keys →
      nm ∈ graph_inputs →
      getU (keys.foldl
        (fun acc n => if n ∈ graph_inputs then add_output_user renames fuel acc n else acc)
        n2u) (rename renames fuel nm) ≠ [] := by
  induction keys with
  | nil => intro n2u nm h; exact absurd h (List.not_mem_nil nm)
  | cons nm' keys ih =>
    intro n2u nm h hin
    rw [List.foldl_cons]
    rcases List.mem_cons.1 h with rfl | h
    · rw [if_pos hin]
      apply pin_mutated_mono
      rw [getU_add_output_user_self]
      simp
    · by_cases hi : nm' ∈ graph_inputs
      · rw [if_pos hi]
        exact ih _ nm h hin
      · rw [if_neg hi]
        exact ih _ nm h hin

/-- C7: `dead_node_elimination` keeps exactly the nodes with a non-empty user
list and records exactly the names of the dropped ones in the removed-buffers
set; and the pinning pass of `compute_users` guarantees a non-empty user list
at `rename(o)` for every graph output `o` and at `rename(x)` for every
mutated graph input `x`, so those (rename-resolved) nodes are never removed. -/
theorem C7_dead_node_elimination (nodes : List (String × List BufUser))
    (removed : List String) (renames : List (String × String)) (fuel : Nat)
    (n2u : List (String × List BufUser)) (graph_outputs graph_inputs : List String) :
    (∀ n, n ∈ (dead_node_elimination nodes removed).1 ↔ n ∈ nodes ∧ n.2 ≠ []) ∧
    (∀ m, m ∈ (dead_node_elimination nodes removed).2 ↔
      m ∈ removed ∨ ∃ n ∈ nodes, n.1 = m ∧ n.2 = []) ∧
    (∀ o ∈ graph_outputs,
      getU (pin_outputs renames fuel n2u graph_outputs) (rename renames fuel o) ≠ []) ∧
    (∀ x, x ∈ renames.map Prod.fst → x ∈ graph_inputs →
      getU (pin_mutated_inputs renames fuel n2u graph_inputs) (rename renames fuel x) ≠ []) ∧
    (∀ n ∈ nodes, n.2 ≠ [] → n ∈ (dead_node_elimination nodes removed).1) := by
  refine ⟨?_, ?_, ?_, ?_, ?_⟩
  · intro n
    simp only [dead_node_elimination, List.mem_filter, Bool.not_eq_true', ne_eq]
    constructor
    · intro ⟨h1, h2⟩
      refine ⟨h1, fun hn => ?_⟩
      rw [hn] at h2
      simp at h2
    · intro ⟨h1, h2⟩
      refine ⟨h1, ?_⟩
      cases hn : n.2 with
      | nil => exact absurd hn h2
      | cons a l => rfl
  · intro m
    simp only [dead_node_elimination, List.mem_append, List.mem_map, List.mem_filter]
    constructor
    · rintro (h | ⟨n, ⟨hn, he⟩, hm⟩)
      · exact Or.inl h
      · exact Or.inr ⟨n, hn, hm, List.isEmpty_iff.1 he⟩
    · rintro (h | ⟨n, hn, hm, he⟩)
      · exact Or.inl h
      · exact Or.inr ⟨n, ⟨hn, by rw [he]; rfl⟩, hm⟩
  · intro o ho
    exact pin_outputs_pins renames fuel graph_outputs n2u o ho
  · intro x hx hin
    exact pin_mutated_pins renames fuel (renames.map Prod.fst) graph_inputs n2u x hx hin
  · intro n hn hne
    simp only [dead_node_elimination, List.mem_filter, Bool.not_eq_true']
    refine ⟨hn, ?_⟩
    cases h2 : n.2 with
    | nil => exact absurd h2 hne
    | cons a l => rfl

/-- Witness for C7 at a concrete graph: node `buf0` has a user, node `buf1`
has none; output `out0` is pinned through the rename chain. -/
theorem C7_dead_node_elimination_witness :
    (∀ n, n ∈ (dead_node_elimination
        [("buf0", [BufUser.mk false "buf2"]), ("buf1", [])] ["r0"]).1 ↔
      n ∈ [("buf0", [BufUser.mk false "buf2"]), ("buf1", [])] ∧ n.2 ≠ []) ∧
    (∀ m, m ∈ (dead_node_elimination
        [("buf0", [BufUser.mk false "buf2"]), ("buf1", [])] ["r0"]).2 ↔
      m ∈ ["r0"] ∨ ∃ n ∈ [("buf0", [BufUser.mk false "buf2"]), ("buf1", [])],
        n.1 = m ∧ n.2 = []) ∧
    (∀ o ∈ ["out0"],
      getU (pin_outputs [("out0", "buf0")] 2 [] ["out0"]) (rename [("out0", "buf0")] 2 o) ≠ []) ∧
    (∀ x, x ∈ ([("out0", "buf0")] : List (String × String)).map Prod.fst → x ∈ ["out0"] →
      getU (pin_mutated_inputs [("out0", "buf0")] 2 [] ["out0"])
        (rename [("out0", "buf0")] 2 x) ≠ []) ∧
    (∀ n ∈ [("buf0", [BufUser.mk false "buf2"]), ("buf1", [])], n.2 ≠ [] →
      n ∈ (dead_node_elimination
        [("buf0", [BufUser.mk false "buf2"]), ("buf1", [])] ["r0"]).1) :=
  C7_dead_node_elimination [("buf0", [BufUser.mk false "buf2"]), ("buf1", [])] ["r0"]
    [("out0", "buf0")] 2 [] ["out0"] ["out0"]

/-! ## C8 : `SchedulerNode.allocate` (lines 299-331) and
`SchedulerNode.can_inplace` (lines 351-357)

`allocate` falls back to `super().allocate()` (fresh allocation when
`should_allocate`, nothing otherwise; the template path never applies to a
`SchedulerNode` since `template_kernels = [ir.Convolution]`) unless the node
should allocate and has neither alias names nor mutation names; in that case,
with `config.inplace_buffers` set, it scans its reads for an input node that
the wrapper can reuse and whose remaining (not-yet-available) uses are exactly
one record with `can_inplace` set whose node is the requesting node itself. -/

/-- A user record as inspected by `allocate`: the consumer's identity
(`remaining_uses[0].node is self`), the consumer's buffer name (compared
against `available_buffer_names`) and the stored `can_inplace` flag. -/
structure AUser where
  nodeId : Nat
  name : String
  can_inplace : Bool
deriving DecidableEq, Repr

/-- The allocation decision taken by `SchedulerNode.allocate`. -/
inductive Alloc where
  | inplace (input : String)
  | fresh
  | noAlloc
deriving DecidableEq, Repr

/-- `remaining_uses` (lines 313-318): the users of the input node whose
buffer name is not yet available. -/
def remaining_uses (users : List AUser) (available : List String) : List AUser :=
  users.filter fun u => !(decide (u.name ∈ available))

/-- The read-scanning loop of `allocate` (lines 308-330): the first read whose
producer exists, is reusable per the wrapper-code oracle `can_reuse`, and has
exactly one remaining use, that use being an in-place-capable record of the
requesting node itself, is reused in place. -/
def scan_reads (selfId : Nat) (available : List String)
    (name_to_node : List (String × List AUser)) (can_reuse : String → Bool) :
    List Dep → Option String
  | [] => none
  | r :: rs =>
    match name_to_node.lookup r.name with
    | some users =>
      if can_reuse r.name then
        match remaining_uses users available with
        | [u] =>
          if u.can_inplace && (u.nodeId == selfId) then some r.name
          else scan_reads selfId available name_to_node can_reuse rs
        | _ => scan_reads selfId available name_to_node can_reuse rs
      else scan_reads selfId available name_to_node can_reuse rs
    | none => scan_reads selfId available name_to_node can_reuse rs

/-- `SchedulerNode.allocate` (lines 299-331).  `should_allocate`,
`alias_names` and `mutation_names` come from the wrapped buffer;
`config_inplace` is `config.inplace_buffers`; `can_reuse` models the external
`V.graph.wrapper_code.can_reuse` capability query. -/
def allocate (should_allocate : Bool) (alias_names mutation_names : List String)
    (config_inplace : Bool) (selfId : Nat) (reads : List Dep)
    (available : List String) (name_to_node : List (String × List AUser))
    (can_reuse : String → Bool) : Alloc :=
  if !should_allocate || !alias_names.isEmpty || !mutation_names.isEmpty then
    if should_allocate then Alloc.fresh else Alloc.noAlloc
  else
    if config_inplace then
      match scan_reads selfId available name_to_node can_reuse reads with
      | some inp => Alloc.inplace inp
      | none => Alloc.fresh
    else Alloc.fresh

/-- `SchedulerNode.can_inplace` (lines 351-357), evaluated on the consumer
node when `compute_users` builds the user record: requires no alias names,
a single write, a precise read, and structurally equal index and size.
A coarse write is modelled as never matching (`write_dep.index` does not
exist on a `StarDep`). -/
def can_inplace (alias_names : List String) (writes : List Dep) (read_dep : Dep) : Bool :=
  if !alias_names.isEmpty then false
  else
    match writes, read_dep with
    | [Dep.mem _wn wi ws], Dep.mem _rn i s => decide (i = wi) && decide (s = ws)
    | _, _ => false

lemma scan_reads_spec (selfId : Nat) (available : List String)
    (name_to_node : List (String × List AUser)) (can_reuse : String → Bool) :
    ∀ (reads : List Dep) (inp : String),
      scan_reads selfId available name_to_node can_reuse reads = some inp →
      ∃ r ∈ reads, r.name = inp ∧ can_reuse inp = true ∧
        ∃ users, name_to_node.lookup inp = some users ∧
          ∃ u, remaining_uses users available = [u] ∧
            u.can_inplace = true ∧ u.nodeId = selfId := by
  intro reads
  induction reads with
  | nil => intro inp h; exact absurd h (by simp [scan_reads])
  | cons r rs ih =>
    intro inp h
    rw [scan_reads] at h
    split at h
    next users hl =>
      split at h
      next hcr =>
        split at h
        next u hrem =>
          split at h
          next hflags =>
            rcases Option.some.inj h with rfl
            simp only [Bool.and_eq_true, beq_iff_eq] at hflags
            exact ⟨r, List.mem_cons_self _ _, rfl, hcr, users, hl, u, hrem,
              hflags.1, hflags.2⟩
          next =>
            obtain ⟨r', hr', rest⟩ := ih inp h
            exact ⟨r', List.mem_cons_of_mem r hr', rest⟩
        next =>
          obtain ⟨r', hr', rest⟩ := ih inp h
          exact ⟨r', List.mem_cons_of_mem r hr', rest⟩
      next =>
        obtain ⟨r', hr', rest⟩ := ih inp h
        exact ⟨r', List.mem_cons_of_mem r hr', rest⟩
    next =>
      obtain ⟨r', hr', rest⟩ := ih inp h
      exact ⟨r', List.mem_cons_of_mem r hr', rest⟩

/-- C8: `allocate` grants in-place reuse only when the node should allocate,
has no alias names and no mutation names, and some read denotes an existing
reusable input whose remaining (unconsumed) uses are exactly one record with
`can_inplace` true whose node is the requester itself; whenever it should
allocate and reuse is not granted, a fresh allocation is performed; and a
consumer's `can_inplace` on a read record holds only when the node has no
alias names, writes exactly one buffer with a precise write record, and the
read's index and size structurally equal the write's. -/
theorem C8_inplace_reuse_guard (should_allocate : Bool)
    (alias_names mutation_names : List String) (config_inplace : Bool)
    (selfId : Nat) (reads : List Dep) (available : List String)
    (name_to_node : List (String × List AUser)) (can_reuse : String → Bool)
    (writes : List Dep) (read_dep : Dep) :
    (∀ inp, allocate should_allocate alias_names mutation_names config_inplace
        selfId reads available name_to_node can_reuse = Alloc.inplace inp →
      should_allocate = true ∧ alias_names = [] ∧ mutation_names = [] ∧
      config_inplace = true ∧
      ∃ r ∈ reads, r.name = inp ∧ can_reuse inp = true ∧
        ∃ users, name_to_node.lookup inp = some users ∧
          ∃ u, remaining_uses users available = [u] ∧
            u.can_inplace = true ∧ u.nodeId = selfId) ∧
    (should_allocate = true →
      allocate should_allocate alias_names mutation_names config_inplace
          selfId reads available name_to_node can_reuse = Alloc.fresh ∨
      ∃ inp, allocate should_allocate alias_names mutation_names config_inplace
          selfId reads available name_to_node can_reuse = Alloc.inplace inp) ∧
    (can_inplace alias_names writes read_dep = true →
      alias_names = [] ∧
      ∃ wn wi ws rn, writes = [Dep.mem wn wi ws] ∧
        read_dep = Dep.mem rn wi ws) := by
  refine ⟨?_, ?_, ?_⟩
  · intro inp h
    rw [allocate] at h
    split at h
    next =>
      split at h <;> exact absurd h (by simp)
    next hguard =>
      have hsa : should_allocate = true := by
        revert hguard
        cases should_allocate <;> simp
      have ha : alias_names = [] := by
        revert hguard
        cases alias_names <;> simp
      have hm : mutation_names = [] := by
        revert hguard
        cases mutation_names <;> simp
      refine ⟨hsa, ha, hm, ?_⟩
      split at h
      next hcfg =>
        split at h
        next inp2 hscan =>
          obtain rfl : inp2 = inp := Alloc.inplace.inj h
          exact ⟨hcfg, scan_reads_spec selfId available name_to_node can_reuse reads _ hscan⟩
        next => exact absurd h (by simp)
      next hcfg => exact absurd h (by simp)
  · intro hsa
    subst hsa
    rw [allocate]
    by_cases hg : (!true || !alias_names.isEmpty || !mutation_names.isEmpty) = true
    · rw [if_pos hg]
      exact Or.inl rfl
    · rw [if_neg hg]
      split
      next hcfg =>
        cases hscan : scan_reads selfId available name_to_node can_reuse reads with
        | some inp => exact Or.inr ⟨inp, rfl⟩
        | none => exact Or.inl rfl
      next => exact Or.inl rfl
  · intro hc
    have ha : alias_names = [] := by
      by_contra hne
      cases halias : alias_names with
      | nil => exact hne halias
      | cons a l =>
        rw [halias] at hc
        exact (Bool.false_ne_true hc).elim
    subst ha
    refine ⟨rfl, ?_⟩
    cases writes with
    | nil => exact (Bool.false_ne_true hc).elim
    | cons w tail =>
      cases w with
      | star n => exact (Bool.false_ne_true hc).elim
      | mem wn wi ws =>
        cases tail with
        | cons w2 t2 => exact (Bool.false_ne_true hc).elim
        | nil =>
          cases read_dep with
          | star n => exact (Bool.false_ne_true hc).elim
          | mem rn i s =>
            have hp : (decide (i = wi) && decide (s = ws)) = true := hc
            simp only [Bool.and_eq_true, decide_eq_true_eq] at hp
            exact ⟨wn, wi, ws, rn, rfl, by rw [hp.1, hp.2]⟩

/-- Witness for C8: a concrete node is granted in-place reuse of input `buf0`,
and the theorem's guard conditions are recovered from that decision. -/
theorem C8_inplace_reuse_guard_witness :
    true = true ∧ ([] : List String) = [] ∧ ([] : List String) = [] ∧ true = true ∧
    (∃ r ∈ [Dep.mem "buf0" 0 [4]], r.name = "buf0" ∧
      (fun _ : String => true) "buf0" = true ∧
      ∃ users, ([("buf0", [AUser.mk 7 "buf0" true])].lookup "buf0") = some users ∧
        ∃ u, remaining_uses users [] = [u] ∧ u.can_inplace = true ∧ u.nodeId = 7) :=
  (C8_inplace_reuse_guard true [] [] true 7 [Dep.mem "buf0" 0 [4]] []
    [("buf0", [AUser.mk 7 "buf0" true])] (fun _ => true)
    [Dep.mem "w" 3 [4]] (Dep.mem "r" 3 [4])).1 "buf0" rfl

/-! ## C4 : `SchedulerNodeBox` (lines 366-382) and
`BlockedNodes.pop_fusable` (lines 401-412)

A blocked node sits in a `SchedulerNodeBox` shared between all index entries
for that node; popping the box tombstones it everywhere.  `pop_fusable`
re-filters each dependency's box list (discarding tombstones), then pops the
boxes whose whole unmet-dependency set is covered by `deps` and whose group
matches.  Boxes are modelled as a list indexed by a numeric box id; a
tombstone is `none`. -/

/-- The payload of a `SchedulerNodeBox`: the blocked node's name, its
unmet-dependency set and its group key (groups abstracted to `Nat`). -/
structure BNode where
  name : String
  unmet : List Dep
  group : Nat
deriving DecidableEq, Repr

/-- The `BlockedNodes` dependency index: box storage plus `dep_to_nodes`
(the `name_to_nodes` index, used only by `pop_name`, is not modelled here). -/
structure BState where
  boxes : List (Option BNode)
  depIdx : List (Dep × List Nat)
deriving Repr

/-- Contents of box `i`; out-of-range ids and popped boxes read as `none`. -/
def boxAt (boxes : List (Option BNode)) (i : Nat) : Option BNode :=
  (boxes.get? i).getD none

/-- `dep_to_nodes[dep]` with defaultdict-empty semantics (first binding wins,
matching dict insertion/assignment semantics). -/
def getIds : List (Dep × List Nat) → Dep → List Nat
  | [], _ => []
  | p :: l, d => if p.1 = d then p.2 else getIds l d

/-- `dep_to_nodes[dep] = ids`: replace the first binding or append one. -/
def setIds : List (Dep × List Nat) → Dep → List Nat → List (Dep × List Nat)
  | [], d, ids => [(d, ids)]
  | p :: l, d, ids => if p.1 = d then (d, ids) :: l else p :: setIds l d ids

/-- The pop condition of `pop_fusable` (lines 407-410):
`len(box.peek().unmet_dependencies - deps) == 0 and box.peek().group == group`. -/
def fusableCond (deps : List Dep) (g : Nat) (nd : BNode) : Bool :=
  (nd.unmet.all fun d => decide (d ∈ deps)) && decide (nd.group = g)

/-- The inner loop of `pop_fusable`: walk the (freshly filtered) box-id list
of one dependency, popping every box whose node satisfies the condition.  A
`none` encountered here cannot happen when each id occurs at most once per
list (`Python` would peek a live box at this point); the model skips it. -/
def pop_fusable_inner (deps : List Dep) (g : Nat) (ids : List Nat)
    (st : List (Option BNode) × List BNode) : List (Option BNode) × List BNode :=
  ids.foldl
    (fun acc i =>
      match boxAt acc.1 i with
      | none => acc
      | some nd =>
        if fusableCond deps g nd then (acc.1.set i none, acc.2 ++ [nd]) else acc)
    st

/-- One iteration of the outer `for dep in deps` loop (lines 404-411):
re-filter the tombstones out of `dep_to_nodes[dep]`, store the filtered list
back, then pop the fusable boxes in it. -/
def pop_fusable_step (deps : List Dep) (g : Nat) (acc : BState × List BNode)
    (d : Dep) : BState × List BNode :=
  let live := (getIds acc.1.depIdx d).filter fun i => (boxAt acc.1.boxes i).isSome
  let idx1 := setIds acc.1.depIdx d live
  let inner := pop_fusable_inner deps g live (acc.1.boxes, acc.2)
  (⟨inner.1, idx1⟩, inner.2)

/-- `BlockedNodes.pop_fusable` (lines 401-412): iterate the dependency set
(modelled as a list in iteration order) and collect the popped nodes. -/
def pop_fusable (st : BState) (deps : List Dep) (g : Nat) : BState × List BNode :=
  deps.foldl (pop_fusable_step deps g) (st, [])

/-- `BlockedNodes.add` (lines 391-396), dependency index part: a fresh box
holding the node is appended and its id is indexed under every unmet
dependency. -/
def bn_add (st : BState) (nd : BNode) : BState :=
  let id := st.boxes.length
  ⟨st.boxes ++ [some nd],
   nd.unmet.foldl (fun idx d => setIds idx d (getIds idx d ++ [id])) st.depIdx⟩

lemma boxAt_set_self (boxes : List (Option BNode)) (i : Nat)
    (h : i < boxes.length) : boxAt (boxes.set i none) i = none := by
  rw [boxAt, List.get?_set_eq]
  rw [List.get?_eq_get h]
  rfl

lemma boxAt_set_other (boxes : List (Option BNode)) (i j : Nat) (h : j ≠ i) :
    boxAt (boxes.set i none) j = boxAt boxes j := by
  rw [boxAt, boxAt, List.get?_set_ne]
  exact fun he => h he.symm

lemma boxAt_isSome_lt (boxes : List (Option BNode)) (i : Nat) (nd : BNode)
    (h : boxAt boxes i = some nd) : i < boxes.length := by
  by_contra hlt
  rw [boxAt, List.get?_eq_none.2 (Nat.le_of_not_lt hlt)] at h
  exact absurd h (by simp)

lemma getIds_setIds_self (idx : List (Dep × List Nat)) (d : Dep) (ids : List Nat) :
    getIds (setIds idx d ids) d = ids := by
  induction idx with
  | nil => simp [setIds, getIds]
  | cons p l ih =>
    rw [setIds]
    by_cases h : p.1 = d
    · rw [if_pos h, getIds, if_pos rfl]
    · rw [if_neg h, getIds, if_neg h]
      exact ih

lemma getIds_setIds_other (idx : List (Dep × List Nat)) (d d' : Dep)
    (ids : List Nat) (h : d' ≠ d) :
    getIds (setIds idx d ids) d' = getIds idx d' := by
  induction idx with
  | nil =>
    simp only [setIds, getIds]
    rw [if_neg (fun he : d = d' => h he.symm)]
  | cons p l ih =>
    rw [setIds]
    by_cases hp : p.1 = d
    · have hpd : p.1 ≠ d' := by
        rw [hp]
        exact fun he => h he.symm
      rw [if_pos hp]
      simp only [getIds]
      rw [if_neg (fun he : d = d' => h he.symm), if_neg hpd]
    · rw [if_neg hp]
      simp only [getIds]
      by_cases hq : p.1 = d'
      · rw [if_pos hq, if_pos hq]
      · rw [if_neg hq, if_neg hq]
        exact ih

/-- What `pop_fusable_inner` extracts from one id list: the satisfying
contents of the live boxes, in list order. -/
def innerPicks (deps : List Dep) (g : Nat) (boxes : List (Option BNode))
    (ids : List Nat) : List BNode :=
  ids.filterMap fun i =>
    match boxAt boxes i with
    | some nd => if fusableCond deps g nd then some nd else none
    | none => none

lemma innerPicks_cons_pop (deps : List Dep) (g : Nat) (boxes : List (Option BNode))
    (i : Nat) (ids : List Nat) (nd : BNode) (h : boxAt boxes i = some nd)
    (hc : fusableCond deps g nd = true) :
    innerPicks deps g boxes (i :: ids) = nd :: innerPicks deps g boxes ids := by
  simp only [innerPicks, List.filterMap_cons, h]
  rw [if_pos hc]

lemma innerPicks_cons_skip (deps : List Dep) (g : Nat) (boxes : List (Option BNode))
    (i : Nat) (ids : List Nat) (nd : BNode) (h : boxAt boxes i = some nd)
    (hc : fusableCond deps g nd = false) :
    innerPicks deps g boxes (i :: ids) = innerPicks deps g boxes ids := by
  simp only [innerPicks, List.filterMap_cons, h]
  rw [if_neg (by rw [hc]; exact Bool.false_ne_true)]

lemma inner_cons (deps : List Dep) (g : Nat) (i : Nat) (ids : List Nat)
    (boxes : List (Option BNode)) (res : List BNode) :
    pop_fusable_inner deps g (i :: ids) (boxes, res) =
      pop_fusable_inner deps g ids
        (match boxAt boxes i with
         | none => (boxes, res)
         | some nd =>
           if fusableCond deps g nd then (boxes.set i none, res ++ [nd])
           else (boxes, res)) := rfl

lemma inner_spec (deps : List Dep) (g : Nat) :
    ∀ (ids : List Nat) (boxes : List (Option BNode)) (res : List BNode),
      ids.Nodup → (∀ i ∈ ids, (boxAt boxes i).isSome) →
      (pop_fusable_inner deps g ids (boxes, res)).2 =
        res ++ innerPicks deps g boxes ids ∧
      (∀ j, j ∉ ids → boxAt (pop_fusable_inner deps g ids (boxes, res)).1 j = boxAt boxes j) ∧
      (∀ j nd, j ∈ ids → boxAt boxes j = some nd →
        boxAt (pop_fusable_inner deps g ids (boxes, res)).1 j =
          (if fusableCond deps g nd then none else some nd)) := by
  intro ids
  induction ids with
  | nil =>
    intro boxes res _ _
    refine ⟨by simp [pop_fusable_inner, innerPicks], fun j _ => rfl, fun j nd h => absurd h (List.not_mem_nil j)⟩
  | cons i ids ih =>
    intro boxes res hnd hlive
    have hni : i ∉ ids := (List.nodup_cons.1 hnd).1
    have hnd2 : ids.Nodup := (List.nodup_cons.1 hnd).2
    obtain ⟨ond, hond⟩ := Option.isSome_iff_exists.1 (hlive i (List.mem_cons_self i ids))
    have hstep : pop_fusable_inner deps g (i :: ids) (boxes, res) =
        pop_fusable_inner deps g ids
          (if fusableCond deps g ond then (boxes.set i none, res ++ [ond]) else (boxes, res)) := by
      rw [inner_cons, hond]
    by_cases hc : fusableCond deps g ond
    · rw [if_pos hc] at hstep
      have hlive2 : ∀ j ∈ ids, (boxAt (boxes.set i none) j).isSome := by
        intro j hj
        rw [boxAt_set_other boxes i j (fun he => hni (he ▸ hj))]
        exact hlive j (List.mem_cons_of_mem i hj)
      obtain ⟨ih1, ih2, ih3⟩ := ih (boxes.set i none) (res ++ [ond]) hnd2 hlive2
      refine ⟨?_, ?_, ?_⟩
      · rw [hstep, ih1]
        have hpicks : innerPicks deps g (boxes.set i none) ids =
            innerPicks deps g boxes ids := by
          apply List.filterMap_congr
          intro j hj
          rw [boxAt_set_other boxes i j (fun he => hni (he ▸ hj))]
        rw [hpicks, innerPicks_cons_pop deps g boxes i ids ond hond hc,
          List.append_assoc]
        rfl
      · intro j hj
        have hji : j ≠ i := fun he => hj (he ▸ List.mem_cons_self i ids)
        have hjids : j ∉ ids := fun hh => hj (List.mem_cons_of_mem i hh)
        rw [hstep, ih2 j hjids, boxAt_set_other boxes i j hji]
      · intro j nd hj hbox
        rcases List.mem_cons.1 hj with hji | hj2
        · subst hji
          obtain rfl : ond = nd := Option.some.inj (hond.symm.trans hbox)
          rw [hstep, ih2 j hni, if_pos hc]
          exact boxAt_set_self boxes j (boxAt_isSome_lt boxes j ond hbox)
        · have hji : j ≠ i := fun he => hni (he ▸ hj2)
          have hbox2 : boxAt (boxes.set i none) j = some nd := by
            rw [boxAt_set_other boxes i j hji]
            exact hbox
          rw [hstep, ih3 j nd hj2 hbox2]
    · rw [if_neg hc] at hstep
      obtain ⟨ih1, ih2, ih3⟩ := ih boxes res hnd2
        (fun j hj => hlive j (List.mem_cons_of_mem i hj))
      have hcf : fusableCond deps g ond = false := by
        revert hc
        cases fusableCond deps g ond <;> simp
      refine ⟨?_, ?_, ?_⟩
      · rw [hstep, ih1, innerPicks_cons_skip deps g boxes i ids ond hond hcf]
      · intro j hj
        exact hstep ▸ ih2 j (fun hh => hj (List.mem_cons_of_mem i hh))
      · intro j nd hj hbox
        rcases List.mem_cons.1 hj with hji | hj2
        · subst hji
          obtain rfl : ond = nd := Option.some.inj (hond.symm.trans hbox)
          rw [hstep, ih2 j hni, hbox, if_neg hc]
        · exact hstep ▸ ih3 j nd hj2 hbox

lemma inner_dead (deps : List Dep) (g : Nat) :
    ∀ (ids : List Nat) (boxes : List (Option BNode)) (res : List BNode) (j : Nat),
      boxAt boxes j = none →
      boxAt (pop_fusable_inner deps g ids (boxes, res)).1 j = none := by
  intro ids
  induction ids with
  | nil => intro boxes res j h; exact h
  | cons i ids ih =>
    intro boxes res j h
    rw [inner_cons]
    cases hbox : boxAt boxes i with
    | none =>
      exact ih boxes res j h
    | some nd =>
      show boxAt (pop_fusable_inner deps g ids
        (if fusableCond deps g nd then (boxes.set i none, res ++ [nd])
         else (boxes, res))).1 j = none
      by_cases hc : fusableCond deps g nd
      · rw [if_pos hc]
        refine ih _ _ j ?_
        by_cases hji : j = i
        · subst hji
          exact absurd h (by rw [hbox]; simp)
        · rw [boxAt_set_other boxes i j hji]
          exact h
      · rw [if_neg hc]
        exact ih boxes res j h

lemma inner_res_mono (deps : List Dep) (g : Nat) :
    ∀ (ids : List Nat) (boxes : List (Option BNode)) (res : List BNode) (nd : BNode),
      nd ∈ res → nd ∈ (pop_fusable_inner deps g ids (boxes, res)).2 := by
  intro ids
  induction ids with
  | nil => intro boxes res nd h; exact h
  | cons i ids ih =>
    intro boxes res nd h
    rw [inner_cons]
    cases hbox : boxAt boxes i with
    | none =>
      exact ih boxes res nd h
    | some nd2 =>
      show nd ∈ (pop_fusable_inner deps g ids
        (if fusableCond deps g nd2 then (boxes.set i none, res ++ [nd2])
         else (boxes, res))).2
      by_cases hc : fusableCond deps g nd2
      · rw [if_pos hc]
        exact ih _ _ nd (List.mem_append_left _ h)
      · rw [if_neg hc]
        exact ih boxes res nd h

lemma innerPicks_cons_none (deps : List Dep) (g : Nat) (boxes : List (Option BNode))
    (i : Nat) (ids : List Nat) (h : boxAt boxes i = none) :
    innerPicks deps g boxes (i :: ids) = innerPicks deps g boxes ids := by
  simp only [innerPicks, List.filterMap_cons, h]

lemma innerPicks_sound (deps : List Dep) (g : Nat) (boxes : List (Option BNode)) :
    ∀ (ids : List Nat) (nd : BNode), nd ∈ innerPicks deps g boxes ids →
      ∃ i ∈ ids, boxAt boxes i = some nd ∧ fusableCond deps g nd = true := by
  intro ids nd h
  rcases List.mem_filterMap.1 h with ⟨i, hi, hf⟩
  cases hb : boxAt boxes i with
  | none =>
    rw [hb] at hf
    exact absurd hf (by simp)
  | some nd2 =>
    rw [hb] at hf
    have hf2 : (if fusableCond deps g nd2 then some nd2 else none) = some nd := hf
    by_cases hc : fusableCond deps g nd2
    · rw [if_pos hc] at hf2
      obtain rfl : nd2 = nd := Option.some.inj hf2
      exact ⟨i, hi, hb, hc⟩
    · rw [if_neg hc] at hf2
      exact absurd hf2 (by simp)

lemma innerPicks_nodup (deps : List Dep) (g : Nat) (boxes : List (Option BNode)) :
    ∀ ids : List Nat, ids.Nodup →
      (∀ i j nd, i ∈ ids → j ∈ ids → boxAt boxes i = some nd →
        boxAt boxes j = some nd → i = j) →
      (innerPicks deps g boxes ids).Nodup := by
  intro ids
  induction ids with
  | nil => intro _ _; simp [innerPicks]
  | cons i ids ih =>
    intro hnd hdi
    have hni : i ∉ ids := (List.nodup_cons.1 hnd).1
    have ihg := ih (List.nodup_cons.1 hnd).2
      (fun a b nd ha hb h1 h2 =>
        hdi a b nd (List.mem_cons_of_mem i ha) (List.mem_cons_of_mem i hb) h1 h2)
    cases hb : boxAt boxes i with
    | none => rw [innerPicks_cons_none deps g boxes i ids hb]; exact ihg
    | some nd =>
      by_cases hc : fusableCond deps g nd
      · rw [innerPicks_cons_pop deps g boxes i ids nd hb hc]
        refine List.nodup_cons.2 ⟨?_, ihg⟩
        intro hmem
        obtain ⟨j, hj, hbj, _⟩ := innerPicks_sound deps g boxes ids nd hmem
        exact hni (hdi i j nd (List.mem_cons_self i ids) (List.mem_cons_of_mem i hj)
          hb hbj ▸ hj)
      · have hcf : fusableCond deps g nd = false := by
          revert hc
          cases fusableCond deps g nd <;> simp
        rw [innerPicks_cons_skip deps g boxes i ids nd hb hcf]
        exact ihg

/-- Invariant of the outer `pop_fusable` fold relative to the original box
storage `orig`: index lists stay duplicate-free, boxes only die, and the
result list holds exactly satisfying nodes of boxes popped so far, without
repetition. -/
def OInv (deps : List Dep) (g : Nat) (orig : List (Option BNode))
    (s : BState × List BNode) : Prop :=
  (∀ d, (getIds s.1.depIdx d).Nodup) ∧
  (∀ i nd, boxAt s.1.boxes i = some nd → boxAt orig i = some nd) ∧
  (∀ nd ∈ s.2, fusableCond deps g nd = true ∧
    ∃ i, boxAt orig i = some nd ∧ boxAt s.1.boxes i = none) ∧
  s.2.Nodup

lemma step_eq (deps : List Dep) (g : Nat) (s : BState × List BNode) (d : Dep) :
    pop_fusable_step deps g s d =
      (⟨(pop_fusable_inner deps g
            ((getIds s.1.depIdx d).filter fun i => (boxAt s.1.boxes i).isSome)
            (s.1.boxes, s.2)).1,
        setIds s.1.depIdx d
          ((getIds s.1.depIdx d).filter fun i => (boxAt s.1.boxes i).isSome)⟩,
       (pop_fusable_inner deps g
          ((getIds s.1.depIdx d).filter fun i => (boxAt s.1.boxes i).isSome)
          (s.1.boxes, s.2)).2) := rfl

lemma step_OInv (deps : List Dep) (g : Nat) (orig : List (Option BNode))
    (hdist : ∀ i j nd, boxAt orig i = some nd → boxAt orig j = some nd → i = j)
    (d : Dep) (s : BState × List BNode) (h : OInv deps g orig s) :
    OInv deps g orig (pop_fusable_step deps g s d) := by
  obtain ⟨hidx, hdie, hres, hnodup⟩ := h
  have hlivend : ((getIds s.1.depIdx d).filter fun i =>
      (boxAt s.1.boxes i).isSome).Nodup := (hidx d).filter _
  have hlive : ∀ i ∈ (getIds s.1.depIdx d).filter
      (fun i => (boxAt s.1.boxes i).isSome), (boxAt s.1.boxes i).isSome :=
    fun i hi => (List.mem_filter.1 hi).2
  obtain ⟨h1, h2, h3⟩ := inner_spec deps g _ s.1.boxes s.2 hlivend hlive
  rw [step_eq]
  refine ⟨?_, ?_, ?_, ?_⟩
  · intro d'
    by_cases hd : d' = d
    · subst hd
      rw [getIds_setIds_self]
      exact hlivend
    · rw [getIds_setIds_other _ _ _ _ hd]
      exact hidx d'
  · intro i nd hb
    by_cases hi : i ∈ (getIds s.1.depIdx d).filter fun i => (boxAt s.1.boxes i).isSome
    · obtain ⟨nd0, hnd0⟩ := Option.isSome_iff_exists.1 (hlive i hi)
      rw [h3 i nd0 hi hnd0] at hb
      by_cases hc : fusableCond deps g nd0
      · rw [if_pos hc] at hb
        exact absurd hb (by simp)
      · rw [if_neg hc] at hb
        obtain rfl : nd0 = nd := Option.some.inj hb
        exact hdie i nd0 hnd0
    · rw [h2 i hi] at hb
      exact hdie i nd hb
  · intro nd hmem
    rw [h1] at hmem
    rcases List.mem_append.1 hmem with hold | hnew
    · obtain ⟨hcond, i, horig, hdead⟩ := hres nd hold
      exact ⟨hcond, i, horig, inner_dead deps g _ s.1.boxes s.2 i hdead⟩
    · obtain ⟨i, hi, hbi, hcond⟩ := innerPicks_sound deps g s.1.boxes _ nd hnew
      refine ⟨hcond, i, hdie i nd hbi, ?_⟩
      rw [h3 i nd hi hbi, if_pos hcond]
  · rw [h1]
    refine List.Nodup.append hnodup ?_ ?_
    · refine innerPicks_nodup deps g s.1.boxes _ hlivend ?_
      intro a b nd _ _ h1a h2b
      exact hdist a b nd (hdie a nd h1a) (hdie b nd h2b)
    · intro nd hndold hndnew
      obtain ⟨i, hi, hbi, _⟩ := innerPicks_sound deps g s.1.boxes _ nd hndnew
      obtain ⟨_, i2, horig2, hdead2⟩ := hres nd hndold
      have : i = i2 := hdist i i2 nd (hdie i nd hbi) horig2
      rw [this, hdead2] at hbi
      exact absurd hbi (by simp)

lemma step_dead (deps : List Dep) (g : Nat) (d : Dep) (s : BState × List BNode)
    (j : Nat) (h : boxAt s.1.boxes j = none) :
    boxAt (pop_fusable_step deps g s d).1.boxes j = none := by
  rw [step_eq]
  exact inner_dead deps g _ s.1.boxes s.2 j h

lemma step_res_mono (deps : List Dep) (g : Nat) (d : Dep) (s : BState × List BNode)
    (nd : BNode) (h : nd ∈ s.2) : nd ∈ (pop_fusable_step deps g s d).2 := by
  rw [step_eq]
  exact inner_res_mono deps g _ s.1.boxes s.2 nd h

lemma step_idx_nodup (deps : List Dep) (g : Nat) (d : Dep) (s : BState × List BNode)
    (h : ∀ d', (getIds s.1.depIdx d').Nodup) :
    ∀ d', (getIds (pop_fusable_step deps g s d).1.depIdx d').Nodup := by
  intro d'
  rw [step_eq]
  by_cases hd : d' = d
  · subst hd
    rw [getIds_setIds_self]
    exact (h d').filter _
  · rw [getIds_setIds_other _ _ _ _ hd]
    exact h d'

lemma fold_dead (deps : List Dep) (g : Nat) :
    ∀ (ds : List Dep) (s : BState × List BNode) (j : Nat),
      boxAt s.1.boxes j = none →
      boxAt (ds.foldl (pop_fusable_step deps g) s).1.boxes j = none := by
  intro ds
  induction ds with
  | nil => intro s j h; exact h
  | cons d ds ih =>
    intro s j h
    rw [List.foldl_cons]
    exact ih _ j (step_dead deps g d s j h)

lemma fold_res_mono (deps : List Dep) (g : Nat) :
    ∀ (ds : List Dep) (s : BState × List BNode) (nd : BNode),
      nd ∈ s.2 → nd ∈ (ds.foldl (pop_fusable_step deps g) s).2 := by
  intro ds
  induction ds with
  | nil => intro s nd h; exact h
  | cons d ds ih =>
    intro s nd h
    rw [List.foldl_cons]
    exact ih _ nd (step_res_mono deps g d s nd h)

lemma fold_OInv (deps : List Dep) (g : Nat) (orig : List (Option BNode))
    (hdist : ∀ i j nd, boxAt orig i = some nd → boxAt orig j = some nd → i = j) :
    ∀ (ds : List Dep) (s : BState × List BNode), OInv deps g orig s →
      OInv deps g orig (ds.foldl (pop_fusable_step deps g) s) := by
  intro ds
  induction ds with
  | nil => intro s h; exact h
  | cons d ds ih =>
    intro s h
    rw [List.foldl_cons]
    exact ih _ (step_OInv deps g orig hdist d s h)

lemma fold_complete (deps : List Dep) (g : Nat) :
    ∀ (ds : List Dep) (s : BState × List BNode) (i : Nat) (nd : BNode),
      (∀ d', (getIds s.1.depIdx d').Nodup) →
      boxAt s.1.boxes i = some nd →
      fusableCond deps g nd = true →
      (∃ d ∈ ds, i ∈ getIds s.1.depIdx d) →
      nd ∈ (ds.foldl (pop_fusable_step deps g) s).2 ∧
        boxAt (ds.foldl (pop_fusable_step deps g) s).1.boxes i = none := by
  intro ds
  induction ds with
  | nil =>
    intro s i nd _ _ _ hex
    obtain ⟨d, hd, _⟩ := hex
    exact absurd hd (List.not_mem_nil d)
  | cons d0 ds ih =>
    intro s i nd hidx hbox hcond hex
    rw [List.foldl_cons]
    by_cases hin : i ∈ getIds s.1.depIdx d0
    · have hlivend : ((getIds s.1.depIdx d0).filter fun j =>
          (boxAt s.1.boxes j).isSome).Nodup := (hidx d0).filter _
      have hlive : ∀ j ∈ (getIds s.1.depIdx d0).filter
          (fun j => (boxAt s.1.boxes j).isSome), (boxAt s.1.boxes j).isSome :=
        fun j hj => (List.mem_filter.1 hj).2
      have hifilter : i ∈ (getIds s.1.depIdx d0).filter
          fun j => (boxAt s.1.boxes j).isSome :=
        List.mem_filter.2 ⟨hin, by rw [hbox]; rfl⟩
      obtain ⟨h1, h2, h3⟩ := inner_spec deps g _ s.1.boxes s.2 hlivend hlive
      have hpop : boxAt (pop_fusable_step deps g s d0).1.boxes i = none := by
        rw [step_eq]
        rw [h3 i nd hifilter hbox, if_pos hcond]
      have hmem : nd ∈ (pop_fusable_step deps g s d0).2 := by
        rw [step_eq]
        rw [h1]
        refine List.mem_append_right _ ?_
        refine List.mem_filterMap.2 ⟨i, hifilter, ?_⟩
        rw [hbox]
        show (if fusableCond deps g nd = true then some nd else none) = some nd
        rw [if_pos hcond]
      exact ⟨fold_res_mono deps g ds _ nd hmem, fold_dead deps g ds _ i hpop⟩
    · obtain ⟨d, hd, hidd⟩ := hex
      have hdne : d ≠ d0 := by
        intro he
        exact hin (he ▸ hidd)
      have hdds : d ∈ ds := by
        rcases List.mem_cons.1 hd with he | he
        · exact absurd he hdne
        · exact he
      have hlive : ∀ j ∈ (getIds s.1.depIdx d0).filter
          (fun j => (boxAt s.1.boxes j).isSome), (boxAt s.1.boxes j).isSome :=
        fun j hj => (List.mem_filter.1 hj).2
      obtain ⟨h1, h2, h3⟩ := inner_spec deps g _ s.1.boxes s.2 ((hidx d0).filter _) hlive
      have hnotfilter : i ∉ (getIds s.1.depIdx d0).filter
          fun j => (boxAt s.1.boxes j).isSome := by
        intro hc
        exact hin (List.mem_filter.1 hc).1
      refine ih (pop_fusable_step deps g s d0) i nd
        (step_idx_nodup deps g d0 s hidx) ?_ hcond ⟨d, hdds, ?_⟩
      · rw [step_eq]
        rw [h2 i hnotfilter]
        exact hbox
      · rw [step_eq]
        show i ∈ getIds (setIds s.1.depIdx d0 _) d
        rw [getIds_setIds_other _ _ _ _ hdne]
        exact hidd

/-- C4: for a well-formed blocked index (each dependency's id list is
duplicate-free, distinct live boxes hold distinct nodes, every live box is
indexed under each of its unmet dependencies, and boxed nodes have a
non-empty unmet set), `pop_fusable st deps g` returns exactly the
still-waiting nodes whose entire unmet-dependency set is contained in `deps`
and whose group equals `g`; each such node is returned exactly once even when
indexed under several dependency records, tombstoned entries are skipped, and
every returned node's box is invalidated in the resulting index. -/
theorem C4_pop_fusable_exact (st : BState) (deps : List Dep) (g : Nat)
    (hidx : ∀ d, (getIds st.depIdx d).Nodup)
    (hdist : ∀ i j nd, boxAt st.boxes i = some nd → boxAt st.boxes j = some nd → i = j)
    (hindexed : ∀ i nd, boxAt st.boxes i = some nd → ∀ d ∈ nd.unmet, i ∈ getIds st.depIdx d)
    (hne : ∀ i nd, boxAt st.boxes i = some nd → nd.unmet ≠ []) :
    (∀ nd ∈ (pop_fusable st deps g).2,
      (∀ d ∈ nd.unmet, d ∈ deps) ∧ nd.group = g ∧
      ∃ i, boxAt st.boxes i = some nd ∧
        boxAt (pop_fusable st deps g).1.boxes i = none) ∧
    (∀ i nd, boxAt st.boxes i = some nd → (∀ d ∈ nd.unmet, d ∈ deps) →
      nd.group = g →
      nd ∈ (pop_fusable st deps g).2 ∧
        boxAt (pop_fusable st deps g).1.boxes i = none) ∧
    (pop_fusable st deps g).2.Nodup := by
  have hcond_iff : ∀ nd : BNode, fusableCond deps g nd = true ↔
      (∀ d ∈ nd.unmet, d ∈ deps) ∧ nd.group = g := by
    intro nd
    simp [fusableCond, List.all_eq_true]
  have hinit : OInv deps g st.boxes (st, []) :=
    ⟨hidx, fun i nd h => h, fun nd h => absurd h (List.not_mem_nil nd), List.nodup_nil⟩
  have hfin := fold_OInv deps g st.boxes hdist deps (st, []) hinit
  obtain ⟨hfidx, hfdie, hfres, hfnodup⟩ := hfin
  refine ⟨?_, ?_, hfnodup⟩
  · intro nd hmem
    obtain ⟨hcond, i, horig, hdead⟩ := hfres nd hmem
    obtain ⟨hsub, hgrp⟩ := (hcond_iff nd).1 hcond
    exact ⟨hsub, hgrp, i, horig, hdead⟩
  · intro i nd hbox hsub hgrp
    have hcond : fusableCond deps g nd = true := (hcond_iff nd).2 ⟨hsub, hgrp⟩
    obtain ⟨d, hd⟩ := List.exists_mem_of_ne_nil nd.unmet (hne i nd hbox)
    exact fold_complete deps g deps (st, []) i nd hidx hbox hcond
      ⟨d, hsub d hd, hindexed i nd hbox d hd⟩

/-- Witness for C4: two blocked nodes, one fusable under the offered deps and
one in a different group; the index also holds a tombstoned box. -/
theorem C4_pop_fusable_exact_witness :
    (∀ nd ∈ (pop_fusable
        ⟨[some ⟨"buf2", [Dep.mem "buf1" 0 [4]], 3⟩, none],
         [(Dep.mem "buf1" 0 [4], [0, 1])]⟩
        [Dep.mem "buf1" 0 [4]] 3).2,
      (∀ d ∈ nd.unmet, d ∈ [Dep.mem "buf1" 0 [4]]) ∧ nd.group = 3 ∧
      ∃ i, boxAt [some ⟨"buf2", [Dep.mem "buf1" 0 [4]], 3⟩, none] i = some nd ∧
        boxAt (pop_fusable
          ⟨[some ⟨"buf2", [Dep.mem "buf1" 0 [4]], 3⟩, none],
           [(Dep.mem "buf1" 0 [4], [0, 1])]⟩
          [Dep.mem "buf1" 0 [4]] 3).1.boxes i = none) ∧
    (∀ i nd, boxAt [some ⟨"buf2", [Dep.mem "buf1" 0 [4]], 3⟩, none] i = some nd →
      (∀ d ∈ nd.unmet, d ∈ [Dep.mem "buf1" 0 [4]]) → nd.group = 3 →
      nd ∈ (pop_fusable
        ⟨[some ⟨"buf2", [Dep.mem "buf1" 0 [4]], 3⟩, none],
         [(Dep.mem "buf1" 0 [4], [0, 1])]⟩
        [Dep.mem "buf1" 0 [4]] 3).2 ∧
        boxAt (pop_fusable
          ⟨[some ⟨"buf2", [Dep.mem "buf1" 0 [4]], 3⟩, none],
           [(Dep.mem "buf1" 0 [4], [0, 1])]⟩
          [Dep.mem "buf1" 0 [4]] 3).1.boxes i = none) ∧
    (pop_fusable
      ⟨[some ⟨"buf2", [Dep.mem "buf1" 0 [4]], 3⟩, none],
       [(Dep.mem "buf1" 0 [4], [0, 1])]⟩
      [Dep.mem "buf1" 0 [4]] 3).2.Nodup :=
  C4_pop_fusable_exact
    ⟨[some ⟨"buf2", [Dep.mem "buf1" 0 [4]], 3⟩, none],
     [(Dep.mem "buf1" 0 [4], [0, 1])]⟩
    [Dep.mem "buf1" 0 [4]] 3
    (by
      intro d
      by_cases h : Dep.mem "buf1" 0 [4] = d
      · subst h
        simp [getIds]
      · simp [getIds, h])
    (by
      intro i j nd hi hj
      have hz : ∀ (m : Nat) (nd' : BNode),
          boxAt [some ⟨"buf2", [Dep.mem "buf1" 0 [4]], 3⟩, none] m = some nd' →
          m = 0 := by
        intro m nd' hm
        rcases m with _ | m
        · rfl
        · rcases m with _ | m
          · exact Option.noConfusion hm
          · exact Option.noConfusion hm
      rw [hz i nd hi, hz j nd hj])
    (by
      intro i nd hi d hd
      rcases i with _ | i
      · obtain rfl := Option.some.inj hi
        rw [List.mem_singleton] at hd
        subst hd
        decide
      · rcases i with _ | i
        · exact Option.noConfusion hi
        · exact Option.noConfusion hi)
    (by
      intro i nd hi
      rcases i with _ | i
      · obtain rfl := Option.some.inj hi
        simp
      · rcases i with _ | i
        · exact Option.noConfusion hi
        · exact Option.noConfusion hi)

/-! ## C3 : mutation-edge construction in `Scheduler.compute_users`
(lines 639-668) with `dep_closure` (lines 623-634)

For a node `N` that mutates buffer `B`: resolve `B` through the rename chain
to the current owner, register `N` as a user of the owner and add a coarse
read dependency on it; then walk the owner's existing user list and, for each
user whose rename-resolved name is not already in `N`'s dependency closure,
add a coarse read dependency on that name and register `N` as its user;
finally update `mutation_renames` so `B` resolves to `N` and record `N`'s
original buffer in `mutation_real_name`. -/

/-- A `NodeUser` entry as stored in `name_to_users`, with the user node
referenced by its name. -/
structure MUser where
  uname : String
  can_inplace : Bool
deriving DecidableEq, Repr

/-- The per-node read/write environment that `dep_closure` consults:
`name_to_node` keys, each node's reads, and its (first) write record
(`list(node.read_writes.writes)[0]`). -/
structure CUEnv where
  nodeNames : List String
  nodeReads : String → List Dep
  nodeWrite : String → Dep

/-- The index/size comparison of `dep_closure` (lines 630-631): a read that
structurally equals the write.  Coarse records carry no index/size
(`dependencies.py` is not under `src/`); they are modelled as never equal. -/
def matches_write (w r : Dep) : Bool :=
  match w, r with
  | Dep.mem _wn wi ws, Dep.mem _rn ri rs => decide (ri = wi) && decide (rs = ws)
  | _, _ => false

/-- `dep_closure` (lines 623-634): the names reachable from `node_name`
through reads that structurally equal the writer's write record.  The Python
recursion is unbounded; `fuel` bounds it. -/
def dep_closure (env : CUEnv) : Nat → String → List String
  | 0, node_name => [node_name]
  | fuel + 1, node_name =>
    node_name ::
      ((env.nodeReads node_name).filter fun r =>
        decide (r.name ∈ env.nodeNames) && matches_write (env.nodeWrite node_name) r).bind
        fun r => dep_closure env fuel r.name

/-- The closure environment at an intermediate point of the mutation loop:
node `nname`'s reads are the ones accumulated so far (the source reads
`self.name_to_node[...]` whose `read_writes` the loop has been mutating). -/
def closEnv (env : CUEnv) (nname : String) (rds : List Dep) : CUEnv :=
  { env with nodeReads := fun m => if m = nname then rds else env.nodeReads m }

/-- The mutable `compute_users` state the mutation loop touches. -/
structure MutState where
  name_to_users : List (String × List MUser)
  mutation_renames : List (String × String)
  mutation_real_name : List (String × String)

/-- `name_to_users[k]` with defaultdict-empty semantics. -/
def getMU (n2u : List (String × List MUser)) (k : String) : List MUser :=
  (n2u.lookup k).getD []

/-- `add_user(used_by_name, user_node, can_inplace)` (lines 636-637): append
a user record to `name_to_users[rename(used_by_name)]`. -/
def add_user_m (s : MutState) (rf : Nat) (used_by : String) (user : MUser) : MutState :=
  { s with
    name_to_users :=
      updA s.name_to_users (rename s.mutation_renames rf used_by)
        (getMU s.name_to_users (rename s.mutation_renames rf used_by) ++ [user]) }

/-- Modelled from the spec: `read_writes.with_read(name)` (used by
`BaseSchedulerNode.add_mutation_dep`, line 76) lives in the absent
`dependencies.py`; per spec §4.1/§3 it adds a coarse whole-buffer dependency
record, with set semantics. -/
def with_read (reads : List Dep) (name : String) : List Dep :=
  if Dep.star name ∈ reads then reads else reads ++ [Dep.star name]

/-- The body of the `for other_node in name_to_users[alt_name]` loop
(lines 646-654): skip users already in the dependency closure, otherwise add
a mutation dependency and re-register the node as user. -/
def mut_step (env : CUEnv) (cf rf : Nat) (nname : String)
    (acc : MutState × List Dep) (u : MUser) : MutState × List Dep :=
  let other_name := rename acc.1.mutation_renames rf u.uname
  if other_name ∈ dep_closure (closEnv env nname acc.2) cf nname then acc
  else (add_user_m acc.1 rf other_name ⟨nname, false⟩, with_read acc.2 other_name)

/-- Lines 641-654 for one mutated buffer `alt0` of node `nname` whose current
reads are `reads`: resolve the owner, register the node as its user, add the
owner dependency, then fold the owner's user list (which now includes the
just-appended self entry, skipped by the closure test as in the source). -/
def process_mutation (env : CUEnv) (cf rf : Nat) (s : MutState)
    (nname : String) (reads : List Dep) (alt0 : String) : MutState × List Dep :=
  let alt := rename s.mutation_renames rf alt0
  let s1 := add_user_m s rf alt ⟨nname, false⟩
  let reads1 := with_read reads alt
  (getMU s1.name_to_users alt).foldl (mut_step env cf rf nname) (s1, reads1)

/-- Lines 663-668: update the rename chain so the buffer resolves to the
mutating node, and record the node's original buffer name. -/
def update_renames (s : MutState) (rf : Nat) (nname alt0 : String) : MutState :=
  { s with
    mutation_renames :=
      updA (updA s.mutation_renames (rename s.mutation_renames rf alt0) nname) alt0 nname,
    mutation_real_name :=
      updA s.mutation_real_name nname ((s.mutation_real_name.lookup alt0).getD alt0) }

/-- The mutation handling of one node as `compute_users` performs it: the
edge-insertion pass followed by the rename-chain update. -/
def compute_users_mutation (env : CUEnv) (cf rf : Nat) (s : MutState)
    (nname : String) (reads : List Dep) (alt0 : String) : MutState × List Dep :=
  let p := process_mutation env cf rf s nname reads alt0
  (update_renames p.1 rf nname alt0, p.2)

lemma with_read_self (reads : List Dep) (n : String) : Dep.star n ∈ with_read reads n := by
  rw [with_read]
  split
  next h => exact h
  next => exact List.mem_append_right _ (List.mem_singleton.2 rfl)

lemma with_read_mono (reads : List Dep) (n : String) (d : Dep) (h : d ∈ reads) :
    d ∈ with_read reads n := by
  rw [with_read]
  split
  · exact h
  · exact List.mem_append_left _ h

lemma mut_step_reads_mono (env : CUEnv) (cf rf : Nat) (nname : String)
    (acc : MutState × List Dep) (u : MUser) (d : Dep) (h : d ∈ acc.2) :
    d ∈ (mut_step env cf rf nname acc u).2 := by
  rw [mut_step]
  split
  · exact h
  · exact with_read_mono acc.2 _ d h

lemma mut_fold_reads_mono (env : CUEnv) (cf rf : Nat) (nname : String) :
    ∀ (us : List MUser) (acc : MutState × List Dep) (d : Dep), d ∈ acc.2 →
      d ∈ (us.foldl (mut_step env cf rf nname) acc).2 := by
  intro us
  induction us with
  | nil => intro acc d h; exact h
  | cons u us ih =>
    intro acc d h
    rw [List.foldl_cons]
    exact ih _ d (mut_step_reads_mono env cf rf nname acc u d h)

lemma mut_step_renames_eq (env : CUEnv) (cf rf : Nat) (nname : String)
    (acc : MutState × List Dep) (u : MUser) :
    (mut_step env cf rf nname acc u).1.mutation_renames = acc.1.mutation_renames := by
  rw [mut_step]
  split
  · rfl
  · rfl

lemma mut_fold_renames_eq (env : CUEnv) (cf rf : Nat) (nname : String) :
    ∀ (us : List MUser) (acc : MutState × List Dep),
      (us.foldl (mut_step env cf rf nname) acc).1.mutation_renames =
        acc.1.mutation_renames := by
  intro us
  induction us with
  | nil => intro acc; rfl
  | cons u us ih =>
    intro acc
    rw [List.foldl_cons, ih, mut_step_renames_eq]

lemma mut_step_realname_eq (env : CUEnv) (cf rf : Nat) (nname : String)
    (acc : MutState × List Dep) (u : MUser) :
    (mut_step env cf rf nname acc u).1.mutation_real_name = acc.1.mutation_real_name := by
  rw [mut_step]
  split
  · rfl
  · rfl

lemma mut_fold_realname_eq (env : CUEnv) (cf rf : Nat) (nname : String) :
    ∀ (us : List MUser) (acc : MutState × List Dep),
      (us.foldl (mut_step env cf rf nname) acc).1.mutation_real_name =
        acc.1.mutation_real_name := by
  intro us
  induction us with
  | nil => intro acc; rfl
  | cons u us ih =>
    intro acc
    rw [List.foldl_cons, ih, mut_step_realname_eq]

lemma process_mutation_renames_eq (env : CUEnv) (cf rf : Nat) (s : MutState)
    (nname : String) (reads : List Dep) (alt0 : String) :
    (process_mutation env cf rf s nname reads alt0).1.mutation_renames =
      s.mutation_renames := by
  rw [process_mutation, mut_fold_renames_eq]
  rfl

lemma process_mutation_realname_eq (env : CUEnv) (cf rf : Nat) (s : MutState)
    (nname : String) (reads : List Dep) (alt0 : String) :
    (process_mutation env cf rf s nname reads alt0).1.mutation_real_name =
      s.mutation_real_name := by
  rw [process_mutation, mut_fold_realname_eq]
  rfl

lemma getMU_add_user_m (s : MutState) (rf : Nat) (used_by : String) (user : MUser) :
    getMU (add_user_m s rf used_by user).name_to_users
        (rename s.mutation_renames rf used_by) =
      getMU s.name_to_users (rename s.mutation_renames rf used_by) ++ [user] := by
  rw [add_user_m, getMU, lookup_updA_self]
  rfl

lemma process_mutation_owner_dep (env : CUEnv) (cf rf : Nat) (s : MutState)
    (nname : String) (reads : List Dep) (alt0 : String) :
    Dep.star (rename s.mutation_renames rf alt0) ∈
      (process_mutation env cf rf s nname reads alt0).2 := by
  rw [process_mutation]
  exact mut_fold_reads_mono env cf rf nname _ _ _
    (with_read_self reads (rename s.mutation_renames rf alt0))

lemma mut_step_skip (env : CUEnv) (cf rf : Nat) (nname : String)
    (acc : MutState × List Dep) (u : MUser)
    (h : rename acc.1.mutation_renames rf u.uname ∈
      dep_closure (closEnv env nname acc.2) cf nname) :
    mut_step env cf rf nname acc u = acc := by
  rw [mut_step, if_pos h]

lemma mut_step_adds (env : CUEnv) (cf rf : Nat) (nname : String)
    (acc : MutState × List Dep) (u : MUser)
    (h : rename acc.1.mutation_renames rf u.uname ∉
      dep_closure (closEnv env nname acc.2) cf nname) :
    Dep.star (rename acc.1.mutation_renames rf u.uname) ∈
      (mut_step env cf rf nname acc u).2 ∧
    (⟨nname, false⟩ : MUser) ∈ getMU (mut_step env cf rf nname acc u).1.name_to_users
      (rename acc.1.mutation_renames rf (rename acc.1.mutation_renames rf u.uname)) := by
  rw [mut_step, if_neg h]
  refine ⟨with_read_self acc.2 _, ?_⟩
  rw [getMU_add_user_m]
  exact List.mem_append_right _ (List.mem_singleton.2 rfl)

lemma update_renames_resolves (s : MutState) (rf : Nat) (nname alt0 : String)
    (hfresh : s.mutation_renames.lookup nname = none)
    (hne1 : nname ≠ alt0) (hne2 : nname ≠ rename s.mutation_renames rf alt0) :
    rename (update_renames s rf nname alt0).mutation_renames 2 alt0 = nname := by
  rw [update_renames]
  have h1 : (updA (updA s.mutation_renames (rename s.mutation_renames rf alt0) nname)
      alt0 nname).lookup alt0 = some nname := lookup_updA_self _ _ _
  have h2 : (updA (updA s.mutation_renames (rename s.mutation_renames rf alt0) nname)
      alt0 nname).lookup nname = none := by
    rw [lookup_updA_other _ _ _ _ hne1, lookup_updA_other _ _ _ _ hne2]
    exact hfresh
  show (match (updA (updA s.mutation_renames (rename s.mutation_renames rf alt0) nname)
      alt0 nname).lookup alt0 with
    | some m => rename (updA (updA s.mutation_renames
        (rename s.mutation_renames rf alt0) nname) alt0 nname) 1 m
    | none => alt0) = nname
  rw [h1]
  show (match (updA (updA s.mutation_renames (rename s.mutation_renames rf alt0) nname)
      alt0 nname).lookup nname with
    | some m => rename (updA (updA s.mutation_renames
        (rename s.mutation_renames rf alt0) nname) alt0 nname) 0 m
    | none => nname) = nname
  rw [h2]

lemma update_renames_real (s : MutState) (rf : Nat) (nname alt0 : String) :
    (update_renames s rf nname alt0).mutation_real_name.lookup nname =
      some ((s.mutation_real_name.lookup alt0).getD alt0) := by
  rw [update_renames]
  exact lookup_updA_self _ _ _

/-- C3: the mutation handling of `compute_users`.  (1) After processing a
mutation of buffer `B = alt0` by node `N = nname`, `N`'s read set contains a
coarse dependency on the rename-resolved current owner of `B`.  (2) Each step
of the walk over the owner's registered users either does nothing — exactly
when the user's rename-resolved name already lies in `N`'s dependency closure
(computed by `dep_closure` over reads whose index and size equal the write's,
on `N`'s current read set) — or otherwise adds a coarse read dependency on
that name and registers `N` as a user of it.  (3) Afterwards the rename
chain resolves `B` to `N`'s name (given that `N`'s name is fresh), and
`mutation_real_name` maps `N`'s name to `B`'s original buffer. -/
theorem C3_mutation_edge_construction (env : CUEnv) (cf rf : Nat) (s : MutState)
    (nname : String) (reads : List Dep) (alt0 : String)
    (acc : MutState × List Dep) (u : MUser)
    (hfresh : s.mutation_renames.lookup nname = none)
    (hne1 : nname ≠ alt0) (hne2 : nname ≠ rename s.mutation_renames rf alt0) :
    Dep.star (rename s.mutation_renames rf alt0) ∈
      (compute_users_mutation env cf rf s nname reads alt0).2 ∧
    (rename acc.1.mutation_renames rf u.uname ∈
        dep_closure (closEnv env nname acc.2) cf nname →
      mut_step env cf rf nname acc u = acc) ∧
    (rename acc.1.mutation_renames rf u.uname ∉
        dep_closure (closEnv env nname acc.2) cf nname →
      Dep.star (rename acc.1.mutation_renames rf u.uname) ∈
        (mut_step env cf rf nname acc u).2 ∧
      (⟨nname, false⟩ : MUser) ∈ getMU (mut_step env cf rf nname acc u).1.name_to_users
        (rename acc.1.mutation_renames rf (rename acc.1.mutation_renames rf u.uname))) ∧
    rename (compute_users_mutation env cf rf s nname reads alt0).1.mutation_renames
      2 alt0 = nname ∧
    (compute_users_mutation env cf rf s nname reads alt0).1.mutation_real_name.lookup
      nname = some ((s.mutation_real_name.lookup alt0).getD alt0) := by
  have hpren := process_mutation_renames_eq env cf rf s nname reads alt0
  have hpreal := process_mutation_realname_eq env cf rf s nname reads alt0
  refine ⟨?_, ?_, ?_, ?_, ?_⟩
  · exact process_mutation_owner_dep env cf rf s nname reads alt0
  · exact mut_step_skip env cf rf nname acc u
  · exact mut_step_adds env cf rf nname acc u
  · show rename (update_renames (process_mutation env cf rf s nname reads alt0).1
      rf nname alt0).mutation_renames 2 alt0 = nname
    have hres := update_renames_resolves
      (process_mutation env cf rf s nname reads alt0).1 rf nname alt0
      (by rw [hpren]; exact hfresh) hne1 (by rw [hpren]; exact hne2)
    rw [update_renames] at hres ⊢
    rw [hpren] at hres
    rw [hpren]
    exact hres
  · show (update_renames (process_mutation env cf rf s nname reads alt0).1
      rf nname alt0).mutation_real_name.lookup nname =
        some ((s.mutation_real_name.lookup alt0).getD alt0)
    have hreal := update_renames_real (process_mutation env cf rf s nname reads alt0).1
      rf nname alt0
    rw [update_renames] at hreal ⊢
    rw [hpreal] at hreal
    rw [hpreal]
    exact hreal



/-- Witness for C3 on a concrete instance: node `buf1` mutates buffer `buf0`
(no prior renames), so it gains a coarse dependency on `buf0` and the rename
chain afterwards resolves `buf0` to `buf1`. -/
theorem C3_mutation_edge_construction_witness :
    Dep.star (rename ([] : List (String × String)) 1 "buf0") ∈
      (compute_users_mutation
        ⟨["buf0", "buf1", "reader0"], fun _ => [], fun _ => Dep.star "w"⟩ 1 1
        ⟨[("buf0", [⟨"reader0", false⟩])], [], []⟩ "buf1" [] "buf0").2 ∧
    rename (compute_users_mutation
        ⟨["buf0", "buf1", "reader0"], fun _ => [], fun _ => Dep.star "w"⟩ 1 1
        ⟨[("buf0", [⟨"reader0", false⟩])], [], []⟩ "buf1" [] "buf0").1.mutation_renames
      2 "buf0" = "buf1" :=
  ⟨(C3_mutation_edge_construction
      ⟨["buf0", "buf1", "reader0"], fun _ => [], fun _ => Dep.star "w"⟩ 1 1
      ⟨[("buf0", [⟨"reader0", false⟩])], [], []⟩ "buf1" [] "buf0"
      (⟨[("buf0", [⟨"reader0", false⟩])], [], []⟩, []) ⟨"reader0", false⟩
      rfl (by decide) (by decide)).1,
   (C3_mutation_edge_construction
      ⟨["buf0", "buf1", "reader0"], fun _ => [], fun _ => Dep.star "w"⟩ 1 1
      ⟨[("buf0", [⟨"reader0", false⟩])], [], []⟩ "buf1" [] "buf0"
      (⟨[("buf0", [⟨"reader0", false⟩])], [], []⟩, []) ⟨"reader0", false⟩
      rfl (by decide) (by decide)).2.2.2.1⟩

/-! ## Driver model for C1, C6, C9

Modelled from the spec: the per-device backend codegen loops
(`codegen/triton.py`, `codegen/cpp.py`) that pull nodes via
`Scheduler.pop_group` / `pop_groups` and invoke `node.run`, `mark_fusable`
and `Scheduler.barrier` are not under `src/`; spec §4.4 describes the loop.
The model below is a small-step relation whose guards are the scheduler's own
rules (scheduler.py): a node becomes runnable only when its pruned
unmet-dependency set is empty (`enqueue`, lines 702-722; `prune_deps`, lines
101-106); a blocked node may be emitted early only when its whole unmet set
is inside `fusable_deps` (`pop_fusable`, line 408), which only ever contains
write records of already-emitted nodes (`mark_fusable`, lines 165, 274);
completed buffers move pending → available at a barrier (lines 761-770).
The relation over-approximates the concrete driver (any group order, any
barrier timing, `fusable_deps` cleared at arbitrary kernel boundaries), so
safety properties proved for all traces cover the real execution. -/

/-- Static per-node scheduling data after `compute_users` and
`dead_node_elimination`: the final read-dependency set (mutation edges
included) and the node's write records. -/
structure GNode where
  name : String
  reads : List Dep
  writes : List Dep
deriving DecidableEq, Repr

/-- Location of a node in the driver state machine (spec §4.4); `emitted`
covers running/done (codegen for the node has been issued). -/
inductive NLoc where
  | blocked
  | runnable
  | emitted
deriving DecidableEq, Repr

/-- Dynamic scheduler state: `available_buffer_names`,
`pending_buffer_names`, `fusable_deps`, the emission order, and each node's
location and unmet-dependency set. -/
structure DState where
  available : List String
  pending : List String
  fusable : List Dep
  emitted : List String
  loc : String → NLoc
  unmet : String → List Dep

/-- Reads of the node named `n` (empty for unknown names). -/
def nodeReadsOf (nodes : List GNode) (n : String) : List Dep :=
  ((nodes.find? fun g => g.name == n).map GNode.reads).getD []

/-- Writes of the node named `n` (empty for unknown names). -/
def nodeWritesOf (nodes : List GNode) (n : String) : List Dep :=
  ((nodes.find? fun g => g.name == n).map GNode.writes).getD []

/-- `BaseSchedulerNode.prune_deps` (lines 101-106): drop the dependency
records whose buffer name is already available. -/
def prune_deps (available : List String) (unmet : List Dep) : List Dep :=
  unmet.filter fun dep => !(decide (dep.name ∈ available))

/-- The initial state after `Scheduler.__init__`: available names are the
graph inputs and constants, every node's unmet set is its reads pruned
against them (`set_read_writes` calls `prune_deps` at construction), and
`enqueue` (lines 702-722) marks a node runnable iff its unmet set is empty. -/
def initState (nodes : List GNode) (initAvail : List String) : DState :=
  { available := initAvail
    pending := []
    fusable := []
    emitted := []
    loc := fun n =>
      if (prune_deps initAvail (nodeReadsOf nodes n)).isEmpty then NLoc.runnable
      else NLoc.blocked
    unmet := fun n => prune_deps initAvail (nodeReadsOf nodes n) }

/-- Emission of node `n` (`node.run`, lines 175-184 / 333-349, followed by
`mark_fusable`): the node's buffer becomes pending, its writes join
`fusable_deps`, and the node is appended to the emission order. -/
def emitUpd (nodes : List GNode) (s : DState) (n : String) : DState :=
  { s with
    pending := n :: s.pending
    fusable := nodeWritesOf nodes n ++ s.fusable
    emitted := s.emitted ++ [n]
    loc := fun m => if m = n then NLoc.emitted else s.loc m }

/-- Pruning of one blocked node against the current available set
(`barrier`, line 767). -/
def pruneUpd (s : DState) (n : String) : DState :=
  { s with
    unmet := fun m => if m = n then prune_deps s.available (s.unmet n) else s.unmet m }

/-- Re-enqueue of a node whose unmet set emptied (`barrier` line 770 /
`enqueue`). -/
def promoteUpd (s : DState) (n : String) : DState :=
  { s with loc := fun m => if m = n then NLoc.runnable else s.loc m }

/-- One pending buffer becomes available (`barrier`, line 762). -/
def availUpd (s : DState) (p : String) : DState :=
  { s with available := p :: s.available, pending := s.pending.erase p }

/-- `Scheduler.kernel` (line 793) clears `fusable_deps` at a kernel boundary. -/
def clearFusUpd (s : DState) : DState :=
  { s with fusable := [] }

/-- The driver step relation (spec §4.4 over the scheduler's own guards). -/
inductive DStep (nodes : List GNode) : DState → DState → Prop where
  | prune (s : DState) (n : String) :
      s.loc n = NLoc.blocked → DStep nodes s (pruneUpd s n)
  | promote (s : DState) (n : String) :
      s.loc n = NLoc.blocked → s.unmet n = [] → DStep nodes s (promoteUpd s n)
  | emitRun (s : DState) (n : String) :
      n ∈ nodes.map GNode.name → s.loc n = NLoc.runnable →
      DStep nodes s (emitUpd nodes s n)
  | emitFuse (s : DState) (n : String) :
      n ∈ nodes.map GNode.name → s.loc n = NLoc.blocked →
      (∀ d ∈ s.unmet n, d ∈ s.fusable) → DStep nodes s (emitUpd nodes s n)
  | avail (s : DState) (p : String) :
      p ∈ s.pending → DStep nodes s (availUpd s p)
  | clear (s : DState) : DStep nodes s (clearFusUpd s)

/-- Invariant of reachable driver states. -/
structure DInv (nodes : List GNode) (initAvail : List String) (s : DState) : Prop where
  runnable_unmet : ∀ n, s.loc n = NLoc.runnable → s.unmet n = []
  reads_cover : ∀ g ∈ nodes, ∀ d ∈ g.reads, d ∈ s.unmet g.name ∨ d.name ∈ s.available
  avail_src : ∀ a ∈ s.available, a ∈ initAvail ∨ a ∈ s.emitted
  pending_src : ∀ p ∈ s.pending, p ∈ s.emitted
  fusable_src : ∀ d ∈ s.fusable, d.name ∈ s.emitted
  emitted_loc : ∀ n, n ∈ s.emitted ↔ s.loc n = NLoc.emitted
  emitted_nodup : s.emitted.Nodup
  emitted_nodes : ∀ e ∈ s.emitted, e ∈ nodes.map GNode.name
  topo : ∀ (j : Nat), ∀ g ∈ nodes, s.emitted.get? j = some g.name →
    ∀ d ∈ g.reads, d.name ∈ initAvail ∨ ∃ i, i < j ∧ s.emitted.get? i = some d.name

lemma find?_by_name (g : GNode) : ∀ nodes : List GNode,
    (nodes.map GNode.name).Nodup → g ∈ nodes →
    (nodes.find? fun x => x.name == g.name) = some g := by
  intro nodes
  induction nodes with
  | nil => intro _ hg; exact absurd hg (List.not_mem_nil g)
  | cons x rest ih =>
    intro hnames hg
    have hx : x.name ∉ rest.map GNode.name := by
      have := List.nodup_cons.1 hnames
      exact this.1
    rcases List.mem_cons.1 hg with heq | hmem
    · rw [heq]
      rw [List.find?_cons_of_pos]
      exact beq_self_eq_true x.name
    · by_cases hxg : x.name = g.name
      · exfalso
        apply hx
        rw [hxg]
        exact List.mem_map_of_mem GNode.name hmem
      · rw [List.find?_cons_of_neg]
        · exact ih (List.nodup_cons.1 hnames).2 hmem
        · exact fun hc => hxg (beq_iff_eq.1 hc)

lemma nodeReadsOf_eq (nodes : List GNode) (g : GNode)
    (hnames : (nodes.map GNode.name).Nodup) (hg : g ∈ nodes) :
    nodeReadsOf nodes g.name = g.reads := by
  rw [nodeReadsOf, find?_by_name g nodes hnames hg]
  rfl

lemma nodeWritesOf_name (nodes : List GNode)
    (hwrites : ∀ g ∈ nodes, ∀ w ∈ g.writes, w.name = g.name)
    (n : String) (w : Dep) (hw : w ∈ nodeWritesOf nodes n) : w.name = n := by
  rw [nodeWritesOf] at hw
  cases hf : nodes.find? fun x => x.name == n with
  | none =>
    rw [hf] at hw
    exact absurd hw (List.not_mem_nil w)
  | some g =>
    rw [hf] at hw
    have hg : g ∈ nodes := List.mem_of_find?_eq_some hf
    have hgn : g.name = n := by
      have := List.find?_some hf
      exact beq_iff_eq.1 this
    rw [hwrites g hg w hw, hgn]

lemma DInv_init (nodes : List GNode) (initAvail : List String)
    (hnames : (nodes.map GNode.name).Nodup) :
    DInv nodes initAvail (initState nodes initAvail) := by
  refine ⟨?_, ?_, ?_, ?_, ?_, ?_, ?_, ?_, ?_⟩
  · intro n hn
    have hn' : (if (prune_deps initAvail (nodeReadsOf nodes n)).isEmpty
        then NLoc.runnable else NLoc.blocked) = NLoc.runnable := hn
    show prune_deps initAvail (nodeReadsOf nodes n) = []
    split at hn'
    next he => exact List.isEmpty_iff.1 he
    next => exact absurd hn' (by decide)
  · intro g hg d hd
    show d ∈ prune_deps initAvail (nodeReadsOf nodes g.name) ∨ d.name ∈ initAvail
    rw [nodeReadsOf_eq nodes g hnames hg]
    by_cases hav : d.name ∈ initAvail
    · exact Or.inr hav
    · left
      rw [prune_deps, List.mem_filter]
      exact ⟨hd, by simp [hav]⟩
  · intro a ha
    exact Or.inl ha
  · intro p hp
    exact absurd hp (List.not_mem_nil p)
  · intro d hd
    exact absurd hd (List.not_mem_nil d)
  · intro n
    constructor
    · intro h
      exact absurd h (List.not_mem_nil n)
    · intro h
      have h' : (if (prune_deps initAvail (nodeReadsOf nodes n)).isEmpty
          then NLoc.runnable else NLoc.blocked) = NLoc.emitted := h
      split at h'
      · exact absurd h' (by decide)
      · exact absurd h' (by decide)
  · exact List.nodup_nil
  · intro e he
    exact absurd he (List.not_mem_nil e)
  · intro j g _ hj
    exact absurd hj (by simp [initState])

lemma DInv_emit (nodes : List GNode) (initAvail : List String)
    (hwrites : ∀ g ∈ nodes, ∀ w ∈ g.writes, w.name = g.name)
    (s : DState) (n : String)
    (hn : n ∈ nodes.map GNode.name)
    (hnotem : s.loc n ≠ NLoc.emitted)
    (hcover : ∀ d ∈ s.unmet n, d.name ∈ s.emitted)
    (hinv : DInv nodes initAvail s) :
    DInv nodes initAvail (emitUpd nodes s n) := by
  obtain ⟨h1, h2, h3, h4, h5, h6, h7, h8, h9⟩ := hinv
  have hnmem : n ∉ s.emitted := fun hc => hnotem ((h6 n).1 hc)
  refine ⟨?_, h2, ?_, ?_, ?_, ?_, ?_, ?_, ?_⟩
  · intro m hm
    have hm' : (if m = n then NLoc.emitted else s.loc m) = NLoc.runnable := hm
    by_cases hmn : m = n
    · rw [if_pos hmn] at hm'
      exact absurd hm' (by decide)
    · rw [if_neg hmn] at hm'
      exact h1 m hm'
  · intro a ha
    rcases h3 a ha with h | h
    · exact Or.inl h
    · exact Or.inr (List.mem_append_left _ h)
  · intro p hp
    have hp' : p ∈ n :: s.pending := hp
    rcases List.mem_cons.1 hp' with heq | hmem
    · rw [heq]
      exact List.mem_append_right _ (List.mem_singleton.2 rfl)
    · exact List.mem_append_left _ (h4 p hmem)
  · intro d hd
    have hd' : d ∈ nodeWritesOf nodes n ++ s.fusable := hd
    rcases List.mem_append.1 hd' with hw | hf
    · rw [nodeWritesOf_name nodes hwrites n d hw]
      exact List.mem_append_right _ (List.mem_singleton.2 rfl)
    · exact List.mem_append_left _ (h5 d hf)
  · intro m
    show m ∈ s.emitted ++ [n] ↔ (if m = n then NLoc.emitted else s.loc m) = NLoc.emitted
    by_cases hmn : m = n
    · rw [if_pos hmn]
      constructor
      · intro _; rfl
      · intro _
        rw [hmn]
        exact List.mem_append_right _ (List.mem_singleton.2 rfl)
    · rw [if_neg hmn]
      constructor
      · intro hmem
        rcases List.mem_append.1 hmem with h | h
        · exact (h6 m).1 h
        · exact absurd (List.mem_singleton.1 h) hmn
      · intro h
        exact List.mem_append_left _ ((h6 m).2 h)
  · refine List.Nodup.append h7 (List.nodup_singleton n) ?_
    intro a ha hb
    rw [List.mem_singleton.1 hb] at ha
    exact hnmem ha
  · intro e he
    have he' : e ∈ s.emitted ++ [n] := he
    rcases List.mem_append.1 he' with h | h
    · exact h8 e h
    · rw [List.mem_singleton.1 h]
      exact hn
  · intro j g hg hj d hd
    have hj' : (s.emitted ++ [n]).get? j = some g.name := hj
    by_cases hjlen : j < s.emitted.length
    · rw [List.get?_append hjlen] at hj'
      rcases h9 j g hg hj' d hd with h | ⟨i, hi, hgi⟩
      · exact Or.inl h
      · refine Or.inr ⟨i, hi, ?_⟩
        show (s.emitted ++ [n]).get? i = some d.name
        rw [List.get?_append (Nat.lt_trans hi hjlen)]
        exact hgi
    · have hlen : j = s.emitted.length := by
        by_contra hne
        have hgt : s.emitted.length < j :=
          Nat.lt_of_le_of_ne (Nat.le_of_not_lt hjlen) (Ne.symm hne)
        have : (s.emitted ++ [n]).get? j = none := by
          rw [List.get?_eq_none]
          rw [List.length_append, List.length_singleton]
          exact hgt
        rw [this] at hj'
        exact absurd hj' (by simp)
      subst hlen
      have hgn : g.name = n := by
        rw [List.get?_concat_length] at hj'
        exact (Option.some.inj hj').symm
      have hsrc : d.name ∈ initAvail ∨ d.name ∈ s.emitted := by
        rcases h2 g hg d hd with hu | ha
        · rw [hgn] at hu
          exact Or.inr (hcover d hu)
        · exact h3 d.name ha
      rcases hsrc with h | h
      · exact Or.inl h
      · obtain ⟨i, hgi⟩ := List.mem_iff_get?.1 h
        have hilt : i < s.emitted.length := by
          rcases List.get?_eq_some.1 hgi with ⟨hh, _⟩
          exact hh
        refine Or.inr ⟨i, hilt, ?_⟩
        show (s.emitted ++ [n]).get? i = some d.name
        rw [List.get?_append hilt]
        exact hgi

lemma DInv_step (nodes : List GNode) (initAvail : List String)
    (hwrites : ∀ g ∈ nodes, ∀ w ∈ g.writes, w.name = g.name)
    (s s' : DState) (hstep : DStep nodes s s')
    (hinv : DInv nodes initAvail s) : DInv nodes initAvail s' := by
  obtain ⟨h1, h2, h3, h4, h5, h6, h7, h8, h9⟩ := hinv
  cases hstep with
  | prune n hloc =>
    refine ⟨?_, ?_, h3, h4, h5, h6, h7, h8, h9⟩
    · intro m hm
      have hm' : s.loc m = NLoc.runnable := hm
      show (if m = n then prune_deps s.available (s.unmet n) else s.unmet m) = []
      by_cases hmn : m = n
      · rw [hmn] at hm'
        rw [hm'] at hloc
        exact absurd hloc (by decide)
      · rw [if_neg hmn]
        exact h1 m hm'
    · intro g hg d hd
      show d ∈ (if g.name = n then prune_deps s.available (s.unmet n)
        else s.unmet g.name) ∨ d.name ∈ s.available
      by_cases hgn : g.name = n
      · rw [if_pos hgn]
        rcases h2 g hg d hd with hu | ha
        · rw [hgn] at hu
          by_cases hav : d.name ∈ s.available
          · exact Or.inr hav
          · left
            rw [prune_deps, List.mem_filter]
            exact ⟨hu, by simp [hav]⟩
        · exact Or.inr ha
      · rw [if_neg hgn]
        exact h2 g hg d hd
  | promote n hloc hunmet =>
    refine ⟨?_, h2, h3, h4, h5, ?_, h7, h8, h9⟩
    · intro m hm
      have hm' : (if m = n then NLoc.runnable else s.loc m) = NLoc.runnable := hm
      show s.unmet m = []
      by_cases hmn : m = n
      · rw [hmn]
        exact hunmet
      · rw [if_neg hmn] at hm'
        exact h1 m hm'
    · intro m
      show m ∈ s.emitted ↔ (if m = n then NLoc.runnable else s.loc m) = NLoc.emitted
      by_cases hmn : m = n
      · rw [if_pos hmn]
        constructor
        · intro hmem
          have hle := (h6 m).1 hmem
          rw [hmn] at hle
          rw [hle] at hloc
          exact absurd hloc (by decide)
        · intro h
          exact absurd h (by decide)
      · rw [if_neg hmn]
        exact h6 m
  | emitRun n hn hloc =>
    refine DInv_emit nodes initAvail hwrites s n hn ?_ ?_
      ⟨h1, h2, h3, h4, h5, h6, h7, h8, h9⟩
    · rw [hloc]
      decide
    · intro d hd
      rw [h1 n hloc] at hd
      exact absurd hd (List.not_mem_nil d)
  | emitFuse n hn hloc hfus =>
    refine DInv_emit nodes initAvail hwrites s n hn ?_ ?_
      ⟨h1, h2, h3, h4, h5, h6, h7, h8, h9⟩
    · rw [hloc]
      decide
    · intro d hd
      exact h5 d (hfus d hd)
  | avail p hp =>
    refine ⟨h1, ?_, ?_, ?_, h5, h6, h7, h8, h9⟩
    · intro g hg d hd
      rcases h2 g hg d hd with hu | ha
      · exact Or.inl hu
      · exact Or.inr (List.mem_cons_of_mem p ha)
    · intro a ha
      have ha' : a ∈ p :: s.available := ha
      rcases List.mem_cons.1 ha' with heq | ha2
      · rw [heq]
        exact Or.inr (h4 p hp)
      · exact h3 a ha2
    · intro q hq
      have hq' : q ∈ s.pending.erase p := hq
      exact h4 q (List.mem_of_mem_erase hq')
  | clear =>
    refine ⟨h1, h2, h3, h4, ?_, h6, h7, h8, h9⟩
    intro d hd
    exact absurd (show d ∈ ([] : List Dep) from hd) (List.not_mem_nil d)

lemma DInv_reach (nodes : List GNode) (initAvail : List String)
    (hnames : (nodes.map GNode.name).Nodup)
    (hwrites : ∀ g ∈ nodes, ∀ w ∈ g.writes, w.name = g.name)
    (s : DState)
    (h : Relation.ReflTransGen (DStep nodes) (initState nodes initAvail) s) :
    DInv nodes initAvail s := by
  induction h with
  | refl => exact DInv_init nodes initAvail hnames
  | tail hab hbc ih => exact DInv_step nodes initAvail hwrites _ _ hbc ih

lemma DStep_unmet_shrink (nodes : List GNode) (s s' : DState)
    (h : DStep nodes s s') : ∀ n, ∀ d ∈ s'.unmet n, d ∈ s.unmet n := by
  cases h with
  | prune m hloc =>
    intro n d hd
    have hd' : d ∈ (if n = m then prune_deps s.available (s.unmet m)
        else s.unmet n) := hd
    by_cases hnm : n = m
    · rw [if_pos hnm] at hd'
      rw [hnm]
      exact (List.mem_filter.1 hd').1
    · rw [if_neg hnm] at hd'
      exact hd'
  | promote m hloc hunmet => intro n d hd; exact hd
  | emitRun m hn hloc => intro n d hd; exact hd
  | emitFuse m hn hloc hfus => intro n d hd; exact hd
  | avail p hp => intro n d hd; exact hd
  | clear => intro n d hd; exact hd

lemma DStep_emitted_mono (nodes : List GNode) (s s' : DState)
    (h : DStep nodes s s') : ∃ t, s'.emitted = s.emitted ++ t := by
  cases h with
  | prune m hloc => exact ⟨[], (List.append_nil _).symm⟩
  | promote m hloc hunmet => exact ⟨[], (List.append_nil _).symm⟩
  | emitRun m hn hloc => exact ⟨[m], rfl⟩
  | emitFuse m hn hloc hfus => exact ⟨[m], rfl⟩
  | avail p hp => exact ⟨[], (List.append_nil _).symm⟩
  | clear => exact ⟨[], (List.append_nil _).symm⟩

/-- C1: topological soundness of the emission order.  For every node graph
with distinct node names whose write records name their own buffer, every
state reachable by the driver from the initial state, and every dependency
edge from producer `A` to consumer `B` (the final read set includes the
mutation-hazard edges of `compute_users`), if `B` has been emitted at
position `j` then `A` was emitted at an earlier position — in particular a
consumer pulled in via `pop_fusable` is yielded only after the producers
whose writes populated `fusable_deps`. -/
theorem C1_topological_soundness (nodes : List GNode) (initAvail : List String)
    (s : DState)
    (hnames : (nodes.map GNode.name).Nodup)
    (hwrites : ∀ g ∈ nodes, ∀ w ∈ g.writes, w.name = g.name)
    (hreach : Relation.ReflTransGen (DStep nodes) (initState nodes initAvail) s)
    (A B : GNode) (_hA : A ∈ nodes) (hB : B ∈ nodes)
    (d : Dep) (hd : d ∈ B.reads) (hdn : d.name = A.name)
    (hAnotin : A.name ∉ initAvail)
    (j : Nat) (hj : s.emitted.get? j = some B.name) :
    ∃ i, i < j ∧ s.emitted.get? i = some A.name := by
  have hinv := DInv_reach nodes initAvail hnames hwrites s hreach
  rcases hinv.topo j B hB hj d hd with h | ⟨i, hi, hgi⟩
  · rw [hdn] at h
    exact absurd h hAnotin
  · refine ⟨i, hi, ?_⟩
    rw [← hdn]
    exact hgi

/-- Witness for C1 on a two-node chain: `a` with no dependencies, `b` reading
`a`; the trace runs `a`, promotes `a` to available at a barrier, prunes and
promotes `b`, then runs `b`; the theorem places `a` strictly before `b`. -/
theorem C1_topological_soundness_witness :
    ∃ i, i < 1 ∧
      (emitUpd [⟨"a", [], [Dep.mem "a" 0 [4]]⟩, ⟨"b", [Dep.mem "a" 0 [4]], [Dep.mem "b" 0 [4]]⟩]
        (promoteUpd (pruneUpd (availUpd (emitUpd
          [⟨"a", [], [Dep.mem "a" 0 [4]]⟩, ⟨"b", [Dep.mem "a" 0 [4]], [Dep.mem "b" 0 [4]]⟩]
          (initState [⟨"a", [], [Dep.mem "a" 0 [4]]⟩, ⟨"b", [Dep.mem "a" 0 [4]], [Dep.mem "b" 0 [4]]⟩] [])
          "a") "a") "b") "b")
        "b").emitted.get? i = some "a" :=
  C1_topological_soundness
    [⟨"a", [], [Dep.mem "a" 0 [4]]⟩, ⟨"b", [Dep.mem "a" 0 [4]], [Dep.mem "b" 0 [4]]⟩] []
    _ (by decide) (by decide)
    (Relation.ReflTransGen.tail
      (Relation.ReflTransGen.tail
        (Relation.ReflTransGen.tail
          (Relation.ReflTransGen.tail
            (Relation.ReflTransGen.tail Relation.ReflTransGen.refl
              (DStep.emitRun _ "a" (by decide) (by decide)))
            (DStep.avail _ "a" (by decide)))
          (DStep.prune _ "b" (by decide)))
        (DStep.promote _ "b" (by decide) (by decide)))
      (DStep.emitRun _ "b" (by decide) (by decide)))
    ⟨"a", [], [Dep.mem "a" 0 [4]]⟩ ⟨"b", [Dep.mem "a" 0 [4]], [Dep.mem "b" 0 [4]]⟩
    (by decide) (by decide)
    (Dep.mem "a" 0 [4]) (by decide) rfl (by decide)
    1 (by decide)

/-- C6: monotone unmet-dependency invariant.  `prune_deps` only removes
records whose buffer name is available (and removes nothing else); no driver
step ever re-adds a record to a node's unmet set; emission order only grows;
and in every reachable state the emission list is duplicate-free (a node is
run at most once, never revisited) while every runnable node has an empty
unmet set. -/
theorem C6_monotone_unmet :
    (∀ (available : List String) (unmet : List Dep),
      (∀ d ∈ prune_deps available unmet, d ∈ unmet) ∧
      (∀ d ∈ unmet, d ∉ prune_deps available unmet → d.name ∈ available)) ∧
    (∀ (nodes : List GNode) (s s' : DState), DStep nodes s s' →
      ∀ n, ∀ d ∈ s'.unmet n, d ∈ s.unmet n) ∧
    (∀ (nodes : List GNode) (s s' : DState), DStep nodes s s' →
      ∃ t, s'.emitted = s.emitted ++ t) ∧
    (∀ (nodes : List GNode) (initAvail : List String) (s : DState),
      (nodes.map GNode.name).Nodup →
      (∀ g ∈ nodes, ∀ w ∈ g.writes, w.name = g.name) →
      Relation.ReflTransGen (DStep nodes) (initState nodes initAvail) s →
      s.emitted.Nodup ∧ ∀ n, s.loc n = NLoc.runnable → s.unmet n = []) := by
  refine ⟨?_, ?_, ?_, ?_⟩
  · intro available unmet
    constructor
    · intro d hd
      exact (List.mem_filter.1 hd).1
    · intro d hd hnot
      by_contra hav
      apply hnot
      rw [prune_deps, List.mem_filter]
      exact ⟨hd, by simp [hav]⟩
  · exact fun nodes s s' h => DStep_unmet_shrink nodes s s' h
  · exact fun nodes s s' h => DStep_emitted_mono nodes s s' h
  · intro nodes initAvail s hnames hwrites hreach
    have hinv := DInv_reach nodes initAvail hnames hwrites s hreach
    exact ⟨hinv.emitted_nodup, hinv.runnable_unmet⟩

/-- Witness for C6 at concrete data: pruning against `{a}` removes exactly
the records named `a`; a prune step on a concrete state shrinks; the
initial state of a one-node graph satisfies the reachable-state facts. -/
theorem C6_monotone_unmet_witness :
    ((∀ d ∈ prune_deps ["a"] [Dep.star "a", Dep.star "b"],
        d ∈ [Dep.star "a", Dep.star "b"]) ∧
      (∀ d ∈ [Dep.star "a", Dep.star "b"],
        d ∉ prune_deps ["a"] [Dep.star "a", Dep.star "b"] → d.name ∈ ["a"])) ∧
    (∀ n, ∀ d ∈ (pruneUpd (initState [⟨"b", [Dep.star "a"], [Dep.mem "b" 0 []]⟩] [])
        "b").unmet n,
      d ∈ (initState [⟨"b", [Dep.star "a"], [Dep.mem "b" 0 []]⟩] []).unmet n) ∧
    ((initState [⟨"b", [Dep.star "a"], [Dep.mem "b" 0 []]⟩] []).emitted.Nodup ∧
      ∀ n, (initState [⟨"b", [Dep.star "a"], [Dep.mem "b" 0 []]⟩] []).loc n =
          NLoc.runnable →
        (initState [⟨"b", [Dep.star "a"], [Dep.mem "b" 0 []]⟩] []).unmet n = []) :=
  ⟨C6_monotone_unmet.1 ["a"] [Dep.star "a", Dep.star "b"],
   C6_monotone_unmet.2.1 [⟨"b", [Dep.star "a"], [Dep.mem "b" 0 []]⟩] _ _
     (DStep.prune _ "b" (by decide)),
   C6_monotone_unmet.2.2.2 [⟨"b", [Dep.star "a"], [Dep.mem "b" 0 []]⟩] [] _
     (by decide) (by decide) Relation.ReflTransGen.refl⟩

/-- The two bare assertions at the exit of `Scheduler.iter_runnable_groups`
(lines 817-818): `assert not self.runnable_nodes` and
`assert len(self.nodes) == self.run_count` (each `run` increments
`run_count` exactly once per emission, so `run_count` is the length of the
emission order).  The error values model Python `AssertionError`s, which
carry only the failed expression, never the blocked node names. -/
def finalCheck (nodes : List GNode) (s : DState) : Except String Unit :=
  if nodes.any fun g => s.loc g.name == NLoc.runnable then
    Except.error "assert not self.runnable_nodes"
  else if nodes.length == s.emitted.length then Except.ok ()
  else Except.error "assert len(self.nodes) == self.run_count"

/-- Counterexample to C9 as stated: two stuck schedulers whose only node is
permanently blocked — named `x` in one and `y` in the other — fail with the
same constant assertion message; the fatal report does not name the offending
blocked nodes. -/
theorem C9_counterexample :
    finalCheck [⟨"x", [Dep.star "m"], [Dep.mem "x" 0 []]⟩]
        (initState [⟨"x", [Dep.star "m"], [Dep.mem "x" 0 []]⟩] []) =
      Except.error "assert len(self.nodes) == self.run_count" ∧
    finalCheck [⟨"y", [Dep.star "m"], [Dep.mem "y" 0 []]⟩]
        (initState [⟨"y", [Dep.star "m"], [Dep.mem "y" 0 []]⟩] []) =
      Except.error "assert len(self.nodes) == self.run_count" ∧
    (initState [⟨"x", [Dep.star "m"], [Dep.mem "x" 0 []]⟩] []).loc "x" = NLoc.blocked ∧
    (initState [⟨"y", [Dep.star "m"], [Dep.mem "y" 0 []]⟩] []).loc "y" = NLoc.blocked :=
  ⟨rfl, rfl, rfl, rfl⟩

/-- C9 (amended): when the driver loop exhausts all runnable work, either the
final check passes — and then every surviving node was emitted exactly once —
or, if any node remains blocked, the scheduler fails fatally through one of
the bare assertions (it never returns normally while silently dropping a
blocked node); the assertion message is a constant that does not identify the
blocked nodes. -/
theorem C9_cycle_failure (nodes : List GNode) (initAvail : List String)
    (s : DState)
    (hnames : (nodes.map GNode.name).Nodup)
    (hwrites : ∀ g ∈ nodes, ∀ w ∈ g.writes, w.name = g.name)
    (hreach : Relation.ReflTransGen (DStep nodes) (initState nodes initAvail) s) :
    (finalCheck nodes s = Except.ok () →
      ∀ g ∈ nodes, g.name ∈ s.emitted ∧ s.emitted.count g.name = 1) ∧
    ((∃ g ∈ nodes, s.loc g.name = NLoc.blocked) →
      ∃ msg, finalCheck nodes s = Except.error msg) := by
  have hinv := DInv_reach nodes initAvail hnames hwrites s hreach
  have hsub : s.emitted.toFinset ⊆ (nodes.map GNode.name).toFinset := by
    intro a ha
    exact List.mem_toFinset.2 (hinv.emitted_nodes a (List.mem_toFinset.1 ha))
  have hcard_emit : s.emitted.toFinset.card = s.emitted.length :=
    List.toFinset_card_of_nodup hinv.emitted_nodup
  have hcard_names : (nodes.map GNode.name).toFinset.card = nodes.length := by
    rw [List.toFinset_card_of_nodup hnames, List.length_map]
  constructor
  · intro hok g hg
    rw [finalCheck] at hok
    split at hok
    next => exact absurd hok (by simp)
    next =>
      split at hok
      next hlen =>
        have he : nodes.length = s.emitted.length := beq_iff_eq.1 hlen
        have hle : (nodes.map GNode.name).toFinset.card ≤ s.emitted.toFinset.card := by
          rw [hcard_emit, hcard_names, he]
        have heq := Finset.eq_of_subset_of_card_le hsub hle
        have hmem : g.name ∈ s.emitted := by
          rw [← List.mem_toFinset, heq]
          exact List.mem_toFinset.2 (List.mem_map_of_mem GNode.name hg)
        exact ⟨hmem, List.count_eq_one_of_mem hinv.emitted_nodup hmem⟩
      next => exact absurd hok (by simp)
  · rintro ⟨g, hg, hblocked⟩
    have hgnot : g.name ∉ s.emitted.toFinset := by
      intro hc
      have h1 := (hinv.emitted_loc g.name).1 (List.mem_toFinset.1 hc)
      rw [h1] at hblocked
      exact absurd hblocked (by decide)
    have hgmem : g.name ∈ (nodes.map GNode.name).toFinset :=
      List.mem_toFinset.2 (List.mem_map_of_mem GNode.name hg)
    have hss : s.emitted.toFinset ⊂ (nodes.map GNode.name).toFinset :=
      (Finset.ssubset_iff_of_subset hsub).2 ⟨g.name, hgmem, hgnot⟩
    have hlt : s.emitted.length < nodes.length := by
      rw [← hcard_emit, ← hcard_names]
      exact Finset.card_lt_card hss
    by_cases hrun : (nodes.any fun g => s.loc g.name == NLoc.runnable) = true
    · exact ⟨"assert not self.runnable_nodes", by rw [finalCheck, if_pos hrun]⟩
    · have hne : (nodes.length == s.emitted.length) = false := by
        rw [beq_eq_false_iff_ne]
        exact Nat.ne_of_gt hlt
      refine ⟨"assert len(self.nodes) == self.run_count", ?_⟩
      rw [finalCheck, if_neg hrun, if_neg ?_]
      intro hc
      rw [hne] at hc
      exact Bool.false_ne_true hc

/-- Witness for C9 (amended): a one-node graph scheduled to completion
passes the final check, and the node was emitted exactly once. -/
theorem C9_cycle_failure_witness :
    (finalCheck [⟨"a", [], [Dep.mem "a" 0 [4]]⟩]
        (emitUpd [⟨"a", [], [Dep.mem "a" 0 [4]]⟩]
          (initState [⟨"a", [], [Dep.mem "a" 0 [4]]⟩] []) "a") = Except.ok () →
      ∀ g ∈ [(⟨"a", [], [Dep.mem "a" 0 [4]]⟩ : GNode)],
        g.name ∈ (emitUpd [⟨"a", [], [Dep.mem "a" 0 [4]]⟩]
          (initState [⟨"a", [], [Dep.mem "a" 0 [4]]⟩] []) "a").emitted ∧
        (emitUpd [⟨"a", [], [Dep.mem "a" 0 [4]]⟩]
          (initState [⟨"a", [], [Dep.mem "a" 0 [4]]⟩] []) "a").emitted.count g.name = 1) ∧
    ((∃ g ∈ [(⟨"a", [], [Dep.mem "a" 0 [4]]⟩ : GNode)],
        (emitUpd [⟨"a", [], [Dep.mem "a" 0 [4]]⟩]
          (initState [⟨"a", [], [Dep.mem "a" 0 [4]]⟩] []) "a").loc g.name = NLoc.blocked) →
      ∃ msg, finalCheck [⟨"a", [], [Dep.mem "a" 0 [4]]⟩]
        (emitUpd [⟨"a", [], [Dep.mem "a" 0 [4]]⟩]
          (initState [⟨"a", [], [Dep.mem "a" 0 [4]]⟩] []) "a") = Except.error msg) :=
  C9_cycle_failure [⟨"a", [], [Dep.mem "a" 0 [4]]⟩] [] _
    (by decide) (by decide)
    (Relation.ReflTransGen.tail Relation.ReflTransGen.refl
      (DStep.emitRun _ "a" (by decide) (by decide)))

end InductorSched
